import Mathlib

/-!
Verification of the shortest-path engine (`dijkstra.py`) and metrics layer
(`metrics.py`) of the multi-campus OSPF network repository.

Modelling conventions:
* Python dicts are association lists (`List (String × α)`), preserving
  insertion order.  Reading `d[k]` is `dget d k : Option α` whose `none`
  branch is Python's `KeyError`; writing `d[k] = v` is `dictSet d k v`
  (in-place update of the first occurrence, append if the key is absent),
  matching CPython dict semantics.
* `float('infinity')` distances are `Option ℕ` values, `none` meaning `+∞`.
  Edge costs in this repository are non-negative integers, embedded as `ℕ`.
* Functions that can raise exceptions return `Option`; `none` is the raised
  exception propagating to the caller.
-/

/-- Python dict read `d[key]`: value of the first entry with this key,
`none` when the key is absent (`KeyError`). -/
def dget {α : Type} : List (String × α) → String → Option α
  | [], _ => none
  | (k, v) :: rest, key => if k = key then some v else dget rest key

/-- Python dict write `d[key] = v`: updates the first entry with this key in
place, appends `(key, v)` when the key is absent. -/
def dictSet {α : Type} : List (String × α) → String → α → List (String × α)
  | [], key, v => [(key, v)]
  | (k, w) :: rest, key, v =>
    if k = key then (k, v) :: rest else (k, w) :: dictSet rest key v

theorem dget_dictSet_self {α : Type} (l : List (String × α)) (k : String) (v : α) :
    dget (dictSet l k v) k = some v := by
  induction l with
  | nil => simp [dictSet, dget]
  | cons p rest ih =>
    obtain ⟨k', w⟩ := p
    by_cases h : k' = k
    · simp [dictSet, dget, h]
    · simp [dictSet, dget, h, ih]

theorem dget_dictSet_ne {α : Type} (l : List (String × α)) {k k' : String} (v : α)
    (h : k' ≠ k) : dget (dictSet l k v) k' = dget l k' := by
  have h' : ¬ (k = k') := fun he => h he.symm
  induction l with
  | nil => simp [dictSet, dget, h']
  | cons p rest ih =>
    obtain ⟨k₀, w⟩ := p
    by_cases h0 : k₀ = k
    · subst h0
      simp [dictSet, dget, h']
    · simp only [dictSet, if_neg h0]
      by_cases h1 : k₀ = k'
      · simp [dget, h1]
      · simp [dget, h1, ih]

theorem dictSet_keys_of_mem {α : Type} {l : List (String × α)} {k : String}
    (hk : k ∈ l.map Prod.fst) (v : α) :
    (dictSet l k v).map Prod.fst = l.map Prod.fst := by
  induction l with
  | nil => simp at hk
  | cons p rest ih =>
    obtain ⟨k', w⟩ := p
    by_cases h : k' = k
    · simp [dictSet, h]
    · have hk' : k ∈ rest.map Prod.fst := by
        simp only [List.map_cons, List.mem_cons] at hk
        rcases hk with h1 | h1
        · exact absurd h1.symm h
        · exact h1
      simp [dictSet, h, ih hk']

theorem dget_isSome_of_mem_keys {α : Type} {l : List (String × α)} {k : String}
    (hk : k ∈ l.map Prod.fst) : (dget l k).isSome := by
  induction l with
  | nil => simp at hk
  | cons p rest ih =>
    obtain ⟨k', w⟩ := p
    by_cases h : k' = k
    · simp [dget, h]
    · have hk' : k ∈ rest.map Prod.fst := by
        simp only [List.map_cons, List.mem_cons] at hk
        rcases hk with h1 | h1
        · exact absurd h1.symm h
        · exact h1
      simp [dget, h, ih hk']

theorem dget_some_mem_keys {α : Type} {l : List (String × α)} {k : String} {v : α}
    (h : dget l k = some v) : k ∈ l.map Prod.fst := by
  induction l with
  | nil => simp [dget] at h
  | cons p rest ih =>
    obtain ⟨k', w⟩ := p
    by_cases h0 : k' = k
    · subst h0; simp
    · simp only [dget, if_neg h0] at h
      simp [ih h]

theorem dget_mem {α : Type} {l : List (String × α)} {k : String} {v : α}
    (h : dget l k = some v) : (k, v) ∈ l := by
  induction l with
  | nil => simp [dget] at h
  | cons p rest ih =>
    obtain ⟨k', w⟩ := p
    by_cases h0 : k' = k
    · subst h0
      have hw : w = v := by simpa [dget] using h
      subst hw
      exact List.mem_cons_self _ _
    · simp only [dget, if_neg h0] at h
      exact List.mem_cons_of_mem _ (ih h)

theorem dget_of_mem_nodup {α : Type} {l : List (String × α)} {k : String} {v : α}
    (hn : (l.map Prod.fst).Nodup) (h : (k, v) ∈ l) : dget l k = some v := by
  induction l with
  | nil => simp at h
  | cons p rest ih =>
    obtain ⟨k', w⟩ := p
    simp only [List.map_cons, List.nodup_cons] at hn
    rcases List.mem_cons.mp h with h1 | h1
    · cases h1
      simp [dget]
    · have hne : k' ≠ k := by
        intro he
        apply hn.1
        rw [he]
        exact List.mem_map.mpr ⟨(k, v), h1, rfl⟩
      simp only [dget, if_neg hne]
      exact ih hn.2 h1

theorem dget_map_const {α β : Type} (l : List (String × α)) (c : β) (k : String) :
    dget (l.map (fun p => (p.1, c))) k = (dget l k).map (fun _ => c) := by
  induction l with
  | nil => simp [dget]
  | cons p rest ih =>
    obtain ⟨k', w⟩ := p
    by_cases h : k' = k
    · simp [dget, h]
    · simp [dget, h, ih]

/-! ## Graph model (`dijkstra.py`)

A graph is the Python dict `{router: {neighbor: cost}}`. -/

/-- Network topology as handed to `DijkstraAlgorithm.__init__`. -/
abbrev Graph : Type := List (String × List (String × ℕ))

/-- The `self.routers = list(graph.keys())` field. -/
def routers (g : Graph) : List String := g.map Prod.fst

/-- Well-formedness that every Python dict literal enjoys: no duplicate keys,
outer or inner. -/
def WFGraph (g : Graph) : Prop :=
  (g.map Prod.fst).Nodup ∧ ∀ p ∈ g, (p.2.map Prod.fst).Nodup

/-- Every neighbor mentioned in an adjacency mapping is itself a key of the
graph (the spec's Topology invariant). -/
def NeighborClosed (g : Graph) : Prop :=
  ∀ u adj, dget g u = some adj → ∀ vc ∈ adj, vc.1 ∈ routers g

/-- Cost of the directed edge `u → v`, when present. -/
def edgeCost (g : Graph) (u v : String) : Option ℕ :=
  (dget g u).bind (fun adj => dget adj v)

/-- Relation `Reach g s v n`: there is a directed walk from `s` to `v` in `g` whose
hop-by-hop cost sum is `n`. -/
inductive Reach (g : Graph) (s : String) : String → ℕ → Prop
  | refl : Reach g s s 0
  | step {v w : String} {n c : ℕ} :
      Reach g s v n → edgeCost g v w = some c → Reach g s w (n + c)

/-- A walk whose every node except possibly the final one lies in `V`. -/
inductive ReachVia (g : Graph) (V : List String) (s : String) : String → ℕ → Prop
  | refl : ReachVia g V s s 0
  | step {v w : String} {n c : ℕ} :
      ReachVia g V s v n → v ∈ V → edgeCost g v w = some c → ReachVia g V s w (n + c)

theorem ReachVia.toReach {g : Graph} {V : List String} {s v : String} {n : ℕ}
    (h : ReachVia g V s v n) : Reach g s v n := by
  induction h with
  | refl => exact Reach.refl
  | step _ _ he ih => exact Reach.step ih he

/-- Any walk either stays inside `V` (except its endpoint) or has a prefix that
first leaves `V`, of no larger cost. -/
theorem reach_split {g : Graph} {s x : String} {m : ℕ} (h : Reach g s x m)
    (V : List String) :
    ReachVia g V s x m ∨ ∃ y m₁, y ∉ V ∧ ReachVia g V s y m₁ ∧ m₁ ≤ m := by
  induction h with
  | refl => exact Or.inl ReachVia.refl
  | @step v w n c hr he ih =>
    rcases ih with hvia | ⟨y, m₁, hy, hvia, hle⟩
    · by_cases hv : v ∈ V
      · exact Or.inl (ReachVia.step hvia hv he)
      · exact Or.inr ⟨v, n, hv, hvia, Nat.le_add_right n c⟩
    · exact Or.inr ⟨y, m₁, hy, hvia, Nat.le_trans hle (Nat.le_add_right n c)⟩

/-- Hop-by-hop sum of the edge costs along a node list (`some 0` for paths with
at most one node; `none` when some consecutive pair is not an edge). -/
def pathCost (g : Graph) : List String → Option ℕ
  | a :: b :: rest =>
    (edgeCost g a b).bind (fun c => (pathCost g (b :: rest)).map (fun n => c + n))
  | _ => some 0

theorem pathCost_snoc {g : Graph} {u v : String} {c : ℕ} (hc : edgeCost g u v = some c) :
    ∀ (l : List String) (n : ℕ), l ≠ [] → l.getLast? = some u →
      pathCost g l = some n → pathCost g (l ++ [v]) = some (n + c)
  | [], _, hne, _, _ => absurd rfl hne
  | [a], n, _, hlast, hcost => by
    simp only [List.getLast?_singleton, Option.some.injEq] at hlast
    subst hlast
    simp only [pathCost, Option.some.injEq] at hcost
    subst hcost
    simp [pathCost, hc]
  | a :: b :: rest, n, _, hlast, hcost => by
    have hlast' : (b :: rest).getLast? = some u := by
      rwa [List.getLast?_cons_cons] at hlast
    simp only [pathCost] at hcost
    cases hab : edgeCost g a b with
    | none => simp [hab] at hcost
    | some c₀ =>
      simp only [hab, Option.bind_some] at hcost
      cases hrest : pathCost g (b :: rest) with
      | none => simp [hrest] at hcost
      | some n₀ =>
        rw [hrest] at hcost
        have hcost' : c₀ + n₀ = n := by simpa using hcost
        have hcc : pathCost g (b :: (rest ++ [v])) = some (n₀ + c) :=
          pathCost_snoc hc (b :: rest) n₀ (by simp) hlast' hrest
        show (edgeCost g a b).bind
            (fun cc => (pathCost g (b :: (rest ++ [v]))).map (fun m => cc + m))
          = some (n + c)
        rw [hab, hcc]
        exact congrArg some (show c₀ + (n₀ + c) = n + c by omega)

/-! ## Priority queue (`heapq`)

Python's `heapq` holds `(distance, router)` tuples and pops the smallest under
lexicographic tuple order (ints first, then strings by code point).  We model
the heap as the list of its elements; `popMin` removes one minimal element,
which is exactly the observable behavior of `heappop`. -/

/-- Code-point lexicographic order on strings, as Python compares `str` and
Lean defines `String.lt`, written out so the kernel can evaluate it. -/
def strLtB : List Char → List Char → Bool
  | [], [] => false
  | [], _ :: _ => true
  | _ :: _, [] => false
  | a :: as, b :: bs => if a < b then true else if b < a then false else strLtB as bs

/-- Lexicographic `≤` on `(int, str)` tuples, as `heapq` compares entries. -/
def pairLe (x y : ℕ × String) : Bool :=
  x.1 < y.1 || (x.1 == y.1 && !(strLtB y.2.data x.2.data))

theorem pairLe_fst_le {x y : ℕ × String} (h : pairLe x y = true) : x.1 ≤ y.1 := by
  simp only [pairLe, Bool.or_eq_true, decide_eq_true_eq, Bool.and_eq_true,
    beq_iff_eq] at h
  rcases h with h | h
  · exact Nat.le_of_lt h
  · exact Nat.le_of_eq h.1

theorem fst_le_of_not_pairLe {x y : ℕ × String} (h : ¬ pairLe x y = true) :
    y.1 ≤ x.1 := by
  by_contra hlt
  exact h (by simp [pairLe, Nat.lt_of_not_le hlt])

/-- Model of `heapq.heappop`: returns one minimal entry and the rest of the heap. -/
def popMin : List (ℕ × String) → Option ((ℕ × String) × List (ℕ × String))
  | [] => none
  | x :: xs =>
    match popMin xs with
    | none => some (x, [])
    | some (m, rest) => if pairLe x m then some (x, xs) else some (m, x :: rest)

theorem popMin_eq_none_iff (l : List (ℕ × String)) : popMin l = none ↔ l = [] := by
  cases l with
  | nil => simp [popMin]
  | cons x xs =>
    simp only [popMin]
    cases popMin xs with
    | none => simp
    | some p =>
      obtain ⟨m, rest⟩ := p
      by_cases h : pairLe x m <;> simp [h]

theorem popMin_perm {l : List (ℕ × String)} {m : ℕ × String}
    {rest : List (ℕ × String)} (h : popMin l = some (m, rest)) :
    l.Perm (m :: rest) := by
  induction l generalizing m rest with
  | nil => simp [popMin] at h
  | cons x xs ih =>
    simp only [popMin] at h
    cases hxs : popMin xs with
    | none =>
      rw [hxs] at h
      obtain rfl : xs = [] := (popMin_eq_none_iff xs).mp hxs
      simp only [Option.some.injEq, Prod.mk.injEq] at h
      rw [h.1, h.2]
    | some p =>
      obtain ⟨m', rest'⟩ := p
      rw [hxs] at h
      by_cases hle : pairLe x m'
      · simp only [hle, if_true, Option.some.injEq, Prod.mk.injEq] at h
        rw [h.1, h.2]
      · simp only [hle, if_false, Bool.false_eq_true, Option.some.injEq,
          Prod.mk.injEq] at h
        have hperm := ih hxs
        obtain ⟨rfl, rfl⟩ := h
        exact (hperm.cons x).trans (List.Perm.swap _ x _)

theorem popMin_min {l : List (ℕ × String)} {m : ℕ × String}
    {rest : List (ℕ × String)} (h : popMin l = some (m, rest)) :
    ∀ e ∈ l, m.1 ≤ e.1 := by
  induction l generalizing m rest with
  | nil => simp [popMin] at h
  | cons x xs ih =>
    simp only [popMin] at h
    cases hxs : popMin xs with
    | none =>
      rw [hxs] at h
      obtain rfl : xs = [] := (popMin_eq_none_iff xs).mp hxs
      simp only [Option.some.injEq, Prod.mk.injEq] at h
      obtain ⟨rfl, rfl⟩ := h
      intro e he
      simp only [List.mem_singleton] at he
      subst he
      exact Nat.le_refl _
    | some p =>
      obtain ⟨m', rest'⟩ := p
      rw [hxs] at h
      by_cases hle : pairLe x m'
      · simp only [hle, if_true, Option.some.injEq, Prod.mk.injEq] at h
        obtain ⟨rfl, rfl⟩ := h
        intro e he
        rcases List.mem_cons.mp he with rfl | he
        · exact Nat.le_refl _
        · exact Nat.le_trans (pairLe_fst_le hle) (ih hxs e he)
      · simp only [hle, if_false, Bool.false_eq_true, Option.some.injEq,
          Prod.mk.injEq] at h
        obtain ⟨rfl, rfl⟩ := h
        intro e he
        rcases List.mem_cons.mp he with rfl | he
        · exact fst_le_of_not_pairLe hle
        · exact ih hxs e he

/-! ## The main loop of `DijkstraAlgorithm.find_shortest_path`

State: `distances` / `previous` dicts, the heap, and the `visited` set
(modelled as the list of visited routers, most recent first). -/

abbrev DistMap : Type := List (String × Option ℕ)
abbrev PrevMap : Type := List (String × Option String)

/-- Comparison `new_distance < distances[neighbor]`, where the right side may
be `float('infinity')`. -/
def ltInf (n : ℕ) : Option ℕ → Bool
  | none => true
  | some m => n < m

/-- The inner `for neighbor, cost in self.graph[current_router].items()` loop:
for each unvisited neighbor, compare `current_distance + cost` with
`distances[neighbor]` (a `KeyError` — `none` — if that key is missing) and on
improvement update both dicts and push onto the heap. -/
def relaxNeighbors (visited : List String) (d : ℕ) (u : String) :
    List (String × ℕ) → DistMap → PrevMap → List (ℕ × String) →
    Option (DistMap × PrevMap × List (ℕ × String))
  | [], dist, prev, queue => some (dist, prev, queue)
  | (v, c) :: rest, dist, prev, queue =>
    if v ∈ visited then relaxNeighbors visited d u rest dist prev queue
    else
      match dget dist v with
      | none => none
      | some dv =>
        if ltInf (d + c) dv then
          relaxNeighbors visited d u rest (dictSet dist v (some (d + c)))
            (dictSet prev v (some u)) (queue ++ [(d + c, v)])
        else relaxNeighbors visited d u rest dist prev queue

/-- Total length of the adjacency lists of unvisited routers. -/
def sumDeg (g : Graph) (visited : List String) : ℕ :=
  ((g.filter (fun p => decide (p.1 ∉ visited))).map (fun p => p.2.length)).sum

/-- Upper bound on the number of loop iterations still possible. -/
def spMeasure (g : Graph) (visited : List String) (queue : List (ℕ × String)) : ℕ :=
  queue.length + sumDeg g visited

/-- The `while priority_queue:` loop.  Fuel only makes the recursion
structural; `find_shortest_path` supplies fuel exceeding `spMeasure`, which we
prove strictly decreases each iteration, so the fuel-exhaustion branch is
unreachable there. -/
def spLoop (g : Graph) : ℕ → DistMap → PrevMap → List (ℕ × String) → List String →
    Option (DistMap × PrevMap)
  | 0, _, _, _, _ => none
  | fuel + 1, dist, prev, queue, visited =>
    match popMin queue with
    | none => some (dist, prev)
    | some ((d, u), rest) =>
      if u ∈ visited then spLoop g fuel dist prev rest visited
      else
        match dget g u with
        | none => spLoop g fuel dist prev rest (u :: visited)
        | some adj =>
          match relaxNeighbors (u :: visited) d u adj dist prev rest with
          | none => none
          | some (dist', prev', queue') => spLoop g fuel dist' prev' queue' (u :: visited)

/-- Initial `distances = {router: float('infinity') for router in self.routers}`. -/
def initDist (g : Graph) : DistMap := g.map (fun p => (p.1, none))

/-- Initial `previous = {router: None for router in self.routers}`. -/
def initPrev (g : Graph) : PrevMap := g.map (fun p => (p.1, none))

/-- Embedding of `DijkstraAlgorithm.find_shortest_path(start)` (the unused `end` and the
`verbose` tracing are omitted; tracing does not affect the returned data).
Returns the `(distances, previous)` pair, or `none` if a `KeyError` is raised. -/
def find_shortest_path (g : Graph) (start : String) : Option (DistMap × PrevMap) :=
  spLoop g (2 + sumDeg g []) (dictSet (initDist g) start (some 0)) (initPrev g)
    [(0, start)] []

/-! ## Properties of one relaxation pass -/

theorem relax_cons_skip {visited : List String} {d : ℕ} {u v : String} {c : ℕ}
    {rest : List (String × ℕ)} {dist : DistMap} {prev : PrevMap}
    {queue : List (ℕ × String)} (hv : v ∈ visited) :
    relaxNeighbors visited d u ((v, c) :: rest) dist prev queue
      = relaxNeighbors visited d u rest dist prev queue := by
  simp [relaxNeighbors, hv]

theorem relax_cons_err {visited : List String} {d : ℕ} {u v : String} {c : ℕ}
    {rest : List (String × ℕ)} {dist : DistMap} {prev : PrevMap}
    {queue : List (ℕ × String)} (hv : v ∉ visited) (hdv : dget dist v = none) :
    relaxNeighbors visited d u ((v, c) :: rest) dist prev queue = none := by
  simp [relaxNeighbors, hv, hdv]

theorem relax_cons_update {visited : List String} {d : ℕ} {u v : String} {c : ℕ}
    {rest : List (String × ℕ)} {dist : DistMap} {prev : PrevMap}
    {queue : List (ℕ × String)} {dv : Option ℕ} (hv : v ∉ visited)
    (hdv : dget dist v = some dv) (hlt : ltInf (d + c) dv = true) :
    relaxNeighbors visited d u ((v, c) :: rest) dist prev queue
      = relaxNeighbors visited d u rest (dictSet dist v (some (d + c)))
          (dictSet prev v (some u)) (queue ++ [(d + c, v)]) := by
  simp [relaxNeighbors, hv, hdv, hlt]

theorem relax_cons_noupd {visited : List String} {d : ℕ} {u v : String} {c : ℕ}
    {rest : List (String × ℕ)} {dist : DistMap} {prev : PrevMap}
    {queue : List (ℕ × String)} {dv : Option ℕ} (hv : v ∉ visited)
    (hdv : dget dist v = some dv) (hlt : ltInf (d + c) dv = false) :
    relaxNeighbors visited d u ((v, c) :: rest) dist prev queue
      = relaxNeighbors visited d u rest dist prev queue := by
  simp [relaxNeighbors, hv, hdv, hlt]

theorem relax_nil {visited : List String} {d : ℕ} {u : String} {dist : DistMap}
    {prev : PrevMap} {queue : List (ℕ × String)} :
    relaxNeighbors visited d u [] dist prev queue = some (dist, prev, queue) := rfl

theorem relax_keys {visited' : List String} {d : ℕ} {u : String} :
    ∀ {adj : List (String × ℕ)} {dist prev dist' prev'} {queue queue' : List (ℕ × String)},
      relaxNeighbors visited' d u adj dist prev queue = some (dist', prev', queue') →
      dist.map Prod.fst = prev.map Prod.fst →
      dist'.map Prod.fst = dist.map Prod.fst ∧ prev'.map Prod.fst = prev.map Prod.fst := by
  intro adj
  induction adj with
  | nil =>
    intro dist prev dist' prev' queue queue' hrel _
    rw [relax_nil] at hrel
    obtain ⟨rfl, rfl, rfl⟩ := by simpa using hrel
    exact ⟨rfl, rfl⟩
  | cons vc rest ih =>
    intro dist prev dist' prev' queue queue' hrel hkeq
    obtain ⟨v, c⟩ := vc
    by_cases hv : v ∈ visited'
    · rw [relax_cons_skip hv] at hrel
      exact ih hrel hkeq
    · cases hdv : dget dist v with
      | none => rw [relax_cons_err hv hdv] at hrel; exact absurd hrel (by simp)
      | some dv =>
        cases hlt : ltInf (d + c) dv with
        | true =>
          rw [relax_cons_update hv hdv hlt] at hrel
          have hvk : v ∈ dist.map Prod.fst := dget_some_mem_keys hdv
          have hvk' : v ∈ prev.map Prod.fst := hkeq ▸ hvk
          have hkeq' : (dictSet dist v (some (d + c))).map Prod.fst
              = (dictSet prev v (some u)).map Prod.fst := by
            rw [dictSet_keys_of_mem hvk, dictSet_keys_of_mem hvk', hkeq]
          obtain ⟨h1, h2⟩ := ih hrel hkeq'
          exact ⟨h1.trans (dictSet_keys_of_mem hvk _),
                 h2.trans (dictSet_keys_of_mem hvk' _)⟩
        | false =>
          rw [relax_cons_noupd hv hdv hlt] at hrel
          exact ih hrel hkeq

theorem relax_isSome {visited' : List String} {d : ℕ} {u : String} :
    ∀ {adj : List (String × ℕ)} {dist : DistMap} {prev : PrevMap}
      {queue : List (ℕ × String)},
      (∀ vc ∈ adj, vc.1 ∈ dist.map Prod.fst) →
      (relaxNeighbors visited' d u adj dist prev queue).isSome := by
  intro adj
  induction adj with
  | nil =>
    intro dist prev queue _
    simp [relax_nil]
  | cons vc rest ih =>
    intro dist prev queue hks
    obtain ⟨v, c⟩ := vc
    by_cases hv : v ∈ visited'
    · rw [relax_cons_skip hv]
      exact ih (fun vc h => hks vc (List.mem_cons_of_mem _ h))
    · have hvk : v ∈ dist.map Prod.fst := hks (v, c) (List.mem_cons_self _ _)
      cases hdv : dget dist v with
      | none =>
        exact absurd (hdv ▸ dget_isSome_of_mem_keys hvk) (by simp)
      | some dv =>
        cases hlt : ltInf (d + c) dv with
        | true =>
          rw [relax_cons_update hv hdv hlt]
          exact ih (fun vc h => by
            rw [dictSet_keys_of_mem hvk]
            exact hks vc (List.mem_cons_of_mem _ h))
        | false =>
          rw [relax_cons_noupd hv hdv hlt]
          exact ih (fun vc h => hks vc (List.mem_cons_of_mem _ h))

theorem relax_frozen {visited' : List String} {d : ℕ} {u : String} :
    ∀ {adj : List (String × ℕ)} {dist prev dist' prev'} {queue queue' : List (ℕ × String)},
      relaxNeighbors visited' d u adj dist prev queue = some (dist', prev', queue') →
      ∀ x ∈ visited', dget dist' x = dget dist x ∧ dget prev' x = dget prev x := by
  intro adj
  induction adj with
  | nil =>
    intro dist prev dist' prev' queue queue' hrel x _
    rw [relax_nil] at hrel
    obtain ⟨rfl, rfl, rfl⟩ := by simpa using hrel
    exact ⟨rfl, rfl⟩
  | cons vc rest ih =>
    intro dist prev dist' prev' queue queue' hrel x hx
    obtain ⟨v, c⟩ := vc
    by_cases hv : v ∈ visited'
    · rw [relax_cons_skip hv] at hrel
      exact ih hrel x hx
    · cases hdv : dget dist v with
      | none => rw [relax_cons_err hv hdv] at hrel; exact absurd hrel (by simp)
      | some dv =>
        cases hlt : ltInf (d + c) dv with
        | true =>
          rw [relax_cons_update hv hdv hlt] at hrel
          have hne : x ≠ v := fun he => hv (he ▸ hx)
          obtain ⟨h1, h2⟩ := ih hrel x hx
          rw [h1, h2, dget_dictSet_ne _ _ hne, dget_dictSet_ne _ _ hne]
          exact ⟨rfl, rfl⟩
        | false =>
          rw [relax_cons_noupd hv hdv hlt] at hrel
          exact ih hrel x hx

theorem relax_queue_len {visited' : List String} {d : ℕ} {u : String} :
    ∀ {adj : List (String × ℕ)} {dist prev dist' prev'} {queue queue' : List (ℕ × String)},
      relaxNeighbors visited' d u adj dist prev queue = some (dist', prev', queue') →
      queue'.length ≤ queue.length + adj.length := by
  intro adj
  induction adj with
  | nil =>
    intro dist prev dist' prev' queue queue' hrel
    rw [relax_nil] at hrel
    obtain ⟨rfl, rfl, rfl⟩ := by simpa using hrel
    simp
  | cons vc rest ih =>
    intro dist prev dist' prev' queue queue' hrel
    obtain ⟨v, c⟩ := vc
    by_cases hv : v ∈ visited'
    · rw [relax_cons_skip hv] at hrel
      have := ih hrel
      simp only [List.length_cons]
      omega
    · cases hdv : dget dist v with
      | none => rw [relax_cons_err hv hdv] at hrel; exact absurd hrel (by simp)
      | some dv =>
        cases hlt : ltInf (d + c) dv with
        | true =>
          rw [relax_cons_update hv hdv hlt] at hrel
          have := ih hrel
          simp only [List.length_append, List.length_cons, List.length_nil] at this ⊢
          omega
        | false =>
          rw [relax_cons_noupd hv hdv hlt] at hrel
          have := ih hrel
          simp only [List.length_cons]
          omega

theorem relax_queue_subset {visited' : List String} {d : ℕ} {u : String} :
    ∀ {adj : List (String × ℕ)} {dist prev dist' prev'} {queue queue' : List (ℕ × String)},
      relaxNeighbors visited' d u adj dist prev queue = some (dist', prev', queue') →
      ∀ e ∈ queue, e ∈ queue' := by
  intro adj
  induction adj with
  | nil =>
    intro dist prev dist' prev' queue queue' hrel e he
    rw [relax_nil] at hrel
    obtain ⟨rfl, rfl, rfl⟩ := by simpa using hrel
    exact he
  | cons vc rest ih =>
    intro dist prev dist' prev' queue queue' hrel e he
    obtain ⟨v, c⟩ := vc
    by_cases hv : v ∈ visited'
    · rw [relax_cons_skip hv] at hrel
      exact ih hrel e he
    · cases hdv : dget dist v with
      | none => rw [relax_cons_err hv hdv] at hrel; exact absurd hrel (by simp)
      | some dv =>
        cases hlt : ltInf (d + c) dv with
        | true =>
          rw [relax_cons_update hv hdv hlt] at hrel
          exact ih hrel e (List.mem_append_left _ he)
        | false =>
          rw [relax_cons_noupd hv hdv hlt] at hrel
          exact ih hrel e he

theorem relax_mono {visited' : List String} {d : ℕ} {u : String} :
    ∀ {adj : List (String × ℕ)} {dist prev dist' prev'} {queue queue' : List (ℕ × String)},
      relaxNeighbors visited' d u adj dist prev queue = some (dist', prev', queue') →
      ∀ x n, dget dist x = some (some n) → ∃ n' ≤ n, dget dist' x = some (some n') := by
  intro adj
  induction adj with
  | nil =>
    intro dist prev dist' prev' queue queue' hrel x n hx
    rw [relax_nil] at hrel
    obtain ⟨rfl, rfl, rfl⟩ := by simpa using hrel
    exact ⟨n, Nat.le_refl n, hx⟩
  | cons vc rest ih =>
    intro dist prev dist' prev' queue queue' hrel x n hx
    obtain ⟨v, c⟩ := vc
    by_cases hv : v ∈ visited'
    · rw [relax_cons_skip hv] at hrel
      exact ih hrel x n hx
    · cases hdv : dget dist v with
      | none => rw [relax_cons_err hv hdv] at hrel; exact absurd hrel (by simp)
      | some dv =>
        cases hlt : ltInf (d + c) dv with
        | true =>
          rw [relax_cons_update hv hdv hlt] at hrel
          by_cases hxv : x = v
          · subst hxv
            have hdvn : dv = some n := by
              rw [hdv] at hx
              exact (Option.some.injEq _ _ ▸ hx : dv = some n)
            subst hdvn
            have hlt' : d + c < n := by simpa [ltInf] using hlt
            have h1 : dget (dictSet dist x (some (d + c))) x = some (some (d + c)) :=
              dget_dictSet_self _ _ _
            obtain ⟨n', hn', h2⟩ := ih hrel x (d + c) h1
            exact ⟨n', Nat.le_trans hn' (Nat.le_of_lt hlt'), h2⟩
          · have h1 : dget (dictSet dist v (some (d + c))) x = some (some n) := by
              rw [dget_dictSet_ne _ _ hxv]; exact hx
            exact ih hrel x n h1
        | false =>
          rw [relax_cons_noupd hv hdv hlt] at hrel
          exact ih hrel x n hx

theorem relax_relaxed {visited' : List String} {d : ℕ} {u : String} :
    ∀ {adj : List (String × ℕ)} {dist prev dist' prev'} {queue queue' : List (ℕ × String)},
      relaxNeighbors visited' d u adj dist prev queue = some (dist', prev', queue') →
      ∀ vc ∈ adj, vc.1 ∉ visited' →
        ∃ nv ≤ d + vc.2, dget dist' vc.1 = some (some nv) := by
  intro adj
  induction adj with
  | nil =>
    intro dist prev dist' prev' queue queue' _ vc hvc
    simp at hvc
  | cons vc0 rest ih =>
    intro dist prev dist' prev' queue queue' hrel vc hvc hnv
    obtain ⟨v, c⟩ := vc0
    by_cases hv : v ∈ visited'
    · rw [relax_cons_skip hv] at hrel
      rcases List.mem_cons.mp hvc with rfl | hvc'
      · exact absurd hv hnv
      · exact ih hrel vc hvc' hnv
    · cases hdv : dget dist v with
      | none => rw [relax_cons_err hv hdv] at hrel; exact absurd hrel (by simp)
      | some dv =>
        cases hlt : ltInf (d + c) dv with
        | true =>
          rw [relax_cons_update hv hdv hlt] at hrel
          rcases List.mem_cons.mp hvc with rfl | hvc'
          · have h1 : dget (dictSet dist v (some (d + c))) v
                = some (some (d + c)) := dget_dictSet_self _ _ _
            obtain ⟨n', hn', h2⟩ := relax_mono hrel v (d + c) h1
            exact ⟨n', hn', h2⟩
          · exact ih hrel vc hvc' hnv
        | false =>
          rw [relax_cons_noupd hv hdv hlt] at hrel
          rcases List.mem_cons.mp hvc with rfl | hvc'
          · obtain ⟨m, hm⟩ : ∃ m, dv = some m := by
              cases dv with
              | none => simp [ltInf] at hlt
              | some m => exact ⟨m, rfl⟩
            subst hm
            have hmle : m ≤ d + c := by
              have := hlt
              simp only [ltInf, decide_eq_false_iff_not, Nat.not_lt] at this
              exact this
            have hdv' : dget dist v = some (some m) := hdv
            obtain ⟨n', hn', h2⟩ := relax_mono hrel v m hdv'
            exact ⟨n', Nat.le_trans hn' hmle, h2⟩
          · exact ih hrel vc hvc' hnv

theorem relax_qsound {visited' : List String} {d : ℕ} {u : String} :
    ∀ {adj : List (String × ℕ)} {dist prev dist' prev'} {queue queue' : List (ℕ × String)},
      relaxNeighbors visited' d u adj dist prev queue = some (dist', prev', queue') →
      (∀ e ∈ queue, ∃ n ≤ e.1, dget dist e.2 = some (some n)) →
      ∀ e ∈ queue', ∃ n ≤ e.1, dget dist' e.2 = some (some n) := by
  intro adj
  induction adj with
  | nil =>
    intro dist prev dist' prev' queue queue' hrel hqs
    rw [relax_nil] at hrel
    obtain ⟨rfl, rfl, rfl⟩ := by simpa using hrel
    exact hqs
  | cons vc rest ih =>
    intro dist prev dist' prev' queue queue' hrel hqs
    obtain ⟨v, c⟩ := vc
    by_cases hv : v ∈ visited'
    · rw [relax_cons_skip hv] at hrel
      exact ih hrel hqs
    · cases hdv : dget dist v with
      | none => rw [relax_cons_err hv hdv] at hrel; exact absurd hrel (by simp)
      | some dv =>
        cases hlt : ltInf (d + c) dv with
        | true =>
          rw [relax_cons_update hv hdv hlt] at hrel
          refine ih hrel ?_
          intro e he
          rcases List.mem_append.mp he with he1 | he2
          · obtain ⟨n, hn, hd⟩ := hqs e he1
            by_cases hev : e.2 = v
            · rw [hev] at hd ⊢
              rw [hdv] at hd
              have hdvn : dv = some n := by
                exact (Option.some.injEq _ _ ▸ hd : dv = some n)
              subst hdvn
              have hlt' : d + c < n := by simpa [ltInf] using hlt
              exact ⟨d + c, by omega, dget_dictSet_self _ _ _⟩
            · exact ⟨n, hn, by rw [dget_dictSet_ne _ _ hev]; exact hd⟩
          · have : e = (d + c, v) := by simpa using he2
            subst this
            exact ⟨d + c, Nat.le_refl _, dget_dictSet_self _ _ _⟩
        | false =>
          rw [relax_cons_noupd hv hdv hlt] at hrel
          exact ih hrel hqs

theorem relax_fresh {visited' : List String} {d : ℕ} {u : String} :
    ∀ {adj : List (String × ℕ)} {dist prev dist' prev'} {queue queue' : List (ℕ × String)},
      relaxNeighbors visited' d u adj dist prev queue = some (dist', prev', queue') →
      (∀ x, x ∉ visited' → ∀ n, dget dist x = some (some n) → (n, x) ∈ queue) →
      ∀ x, x ∉ visited' → ∀ n, dget dist' x = some (some n) → (n, x) ∈ queue' := by
  intro adj
  induction adj with
  | nil =>
    intro dist prev dist' prev' queue queue' hrel hqf
    rw [relax_nil] at hrel
    obtain ⟨rfl, rfl, rfl⟩ := by simpa using hrel
    exact hqf
  | cons vc rest ih =>
    intro dist prev dist' prev' queue queue' hrel hqf
    obtain ⟨v, c⟩ := vc
    by_cases hv : v ∈ visited'
    · rw [relax_cons_skip hv] at hrel
      exact ih hrel hqf
    · cases hdv : dget dist v with
      | none => rw [relax_cons_err hv hdv] at hrel; exact absurd hrel (by simp)
      | some dv =>
        cases hlt : ltInf (d + c) dv with
        | true =>
          rw [relax_cons_update hv hdv hlt] at hrel
          refine ih hrel ?_
          intro x hx n hxd
          by_cases hxv : x = v
          · subst hxv
            rw [dget_dictSet_self] at hxd
            have : (d + c : ℕ) = n := by
              have := (Option.some.injEq _ _ ▸ hxd : (some (d + c) : Option ℕ) = some n)
              simpa using this
            subst this
            exact List.mem_append_right _ (by simp)
          · rw [dget_dictSet_ne _ _ hxv] at hxd
            exact List.mem_append_left _ (hqf x hx n hxd)
        | false =>
          rw [relax_cons_noupd hv hdv hlt] at hrel
          exact ih hrel hqf

theorem relax_update_char {visited' : List String} {d : ℕ} {u : String} :
    ∀ {adj : List (String × ℕ)} {dist prev dist' prev'} {queue queue' : List (ℕ × String)},
      relaxNeighbors visited' d u adj dist prev queue = some (dist', prev', queue') →
      ∀ x, (dget dist' x = dget dist x ∧ dget prev' x = dget prev x)
        ∨ (x ∉ visited' ∧ ∃ c, (x, c) ∈ adj ∧ dget dist' x = some (some (d + c))
            ∧ dget prev' x = some (some u)) := by
  intro adj
  induction adj with
  | nil =>
    intro dist prev dist' prev' queue queue' hrel x
    rw [relax_nil] at hrel
    obtain ⟨rfl, rfl, rfl⟩ := by simpa using hrel
    exact Or.inl ⟨rfl, rfl⟩
  | cons vc rest ih =>
    intro dist prev dist' prev' queue queue' hrel x
    obtain ⟨v, c⟩ := vc
    by_cases hv : v ∈ visited'
    · rw [relax_cons_skip hv] at hrel
      rcases ih hrel x with h | ⟨hx, c', hmem, h1, h2⟩
      · exact Or.inl h
      · exact Or.inr ⟨hx, c', List.mem_cons_of_mem _ hmem, h1, h2⟩
    · cases hdv : dget dist v with
      | none => rw [relax_cons_err hv hdv] at hrel; exact absurd hrel (by simp)
      | some dv =>
        cases hlt : ltInf (d + c) dv with
        | true =>
          rw [relax_cons_update hv hdv hlt] at hrel
          rcases ih hrel x with ⟨h1, h2⟩ | ⟨hx, c', hmem, h1, h2⟩
          · by_cases hxv : x = v
            · subst hxv
              refine Or.inr ⟨hv, c, List.mem_cons_self _ _, ?_, ?_⟩
              · rw [h1, dget_dictSet_self]
              · rw [h2, dget_dictSet_self]
            · refine Or.inl ⟨?_, ?_⟩
              · rw [h1, dget_dictSet_ne _ _ hxv]
              · rw [h2, dget_dictSet_ne _ _ hxv]
          · exact Or.inr ⟨hx, c', List.mem_cons_of_mem _ hmem, h1, h2⟩
        | false =>
          rw [relax_cons_noupd hv hdv hlt] at hrel
          rcases ih hrel x with h | ⟨hx, c', hmem, h1, h2⟩
          · exact Or.inl h
          · exact Or.inr ⟨hx, c', List.mem_cons_of_mem _ hmem, h1, h2⟩

theorem relax_zero {visited' : List String} {d : ℕ} {u : String} :
    ∀ {adj : List (String × ℕ)} {dist prev dist' prev'} {queue queue' : List (ℕ × String)},
      relaxNeighbors visited' d u adj dist prev queue = some (dist', prev', queue') →
      ∀ x, dget dist x = some (some 0) →
        dget dist' x = some (some 0) ∧ dget prev' x = dget prev x := by
  intro adj
  induction adj with
  | nil =>
    intro dist prev dist' prev' queue queue' hrel x hx
    rw [relax_nil] at hrel
    obtain ⟨rfl, rfl, rfl⟩ := by simpa using hrel
    exact ⟨hx, rfl⟩
  | cons vc rest ih =>
    intro dist prev dist' prev' queue queue' hrel x hx
    obtain ⟨v, c⟩ := vc
    by_cases hv : v ∈ visited'
    · rw [relax_cons_skip hv] at hrel
      exact ih hrel x hx
    · cases hdv : dget dist v with
      | none => rw [relax_cons_err hv hdv] at hrel; exact absurd hrel (by simp)
      | some dv =>
        cases hlt : ltInf (d + c) dv with
        | true =>
          rw [relax_cons_update hv hdv hlt] at hrel
          by_cases hxv : x = v
          · subst hxv
            rw [hdv] at hx
            have hdv0 : dv = some 0 := by
              exact (Option.some.injEq _ _ ▸ hx : dv = some 0)
            subst hdv0
            simp [ltInf] at hlt
          · have hx1 : dget (dictSet dist v (some (d + c))) x = some (some 0) := by
              rw [dget_dictSet_ne _ _ hxv]
              exact hx
            obtain ⟨h1, h2⟩ := ih hrel x hx1
            refine ⟨h1, ?_⟩
            rw [h2, dget_dictSet_ne _ _ hxv]
        | false =>
          rw [relax_cons_noupd hv hdv hlt] at hrel
          exact ih hrel x hx

/-! ## The loop measure decreases -/

theorem sumDeg_cons (p : String × List (String × ℕ)) (g : Graph) (visited : List String) :
    sumDeg (p :: g) visited
      = (if p.1 ∈ visited then 0 else p.2.length) + sumDeg g visited := by
  by_cases h : p.1 ∈ visited
  · simp [sumDeg, List.filter_cons, h]
  · simp [sumDeg, List.filter_cons, h]

theorem sumDeg_mono (g : Graph) (u : String) (visited : List String) :
    sumDeg g (u :: visited) ≤ sumDeg g visited := by
  induction g with
  | nil => simp [sumDeg]
  | cons p rest ih =>
    rw [sumDeg_cons, sumDeg_cons]
    by_cases h2 : p.1 ∈ visited
    · have h1 : p.1 ∈ u :: visited := List.mem_cons_of_mem _ h2
      rw [if_pos h1, if_pos h2]
      omega
    · by_cases h1 : p.1 ∈ u :: visited
      · rw [if_pos h1, if_neg h2]
        omega
      · rw [if_neg h1, if_neg h2]
        omega

theorem sumDeg_visit {g : Graph} {u : String} {adj : List (String × ℕ)}
    (hgu : dget g u = some adj) {visited : List String} (hu : u ∉ visited) :
    sumDeg g (u :: visited) + adj.length ≤ sumDeg g visited := by
  induction g with
  | nil => simp [dget] at hgu
  | cons p rest ih =>
    obtain ⟨k, ns⟩ := p
    rw [sumDeg_cons, sumDeg_cons]
    by_cases hk : k = u
    · subst hk
      have hadj : ns = adj := by simpa [dget] using hgu
      have h1 : (k, ns).1 ∈ k :: visited := List.mem_cons_self _ _
      rw [← hadj, if_pos h1, if_neg (show (k, ns).1 ∉ visited from hu)]
      have := sumDeg_mono rest k visited
      have hsnd : ((k, ns).2).length = ns.length := rfl
      omega
    · simp only [dget, if_neg hk] at hgu
      have := ih hgu
      by_cases h2 : (k, ns).1 ∈ visited
      · have h1 : (k, ns).1 ∈ u :: visited := List.mem_cons_of_mem _ h2
        rw [if_pos h1, if_pos h2]
        omega
      · by_cases h1 : (k, ns).1 ∈ u :: visited
        · rcases List.mem_cons.mp h1 with he | he
          · exact absurd he hk
          · exact absurd he h2
        · rw [if_neg h1, if_neg h2]
          omega

/-! ## The loop invariant -/

/-- Invariant of the `while priority_queue:` loop of `find_shortest_path`,
for source `s` on graph `g`. -/
structure SPInv (g : Graph) (s : String) (dist : DistMap) (prev : PrevMap)
    (queue : List (ℕ × String)) (visited : List String) : Prop where
  keysD : dist.map Prod.fst = g.map Prod.fst
  keysP : prev.map Prod.fst = g.map Prod.fst
  nodupV : visited.Nodup
  hs0 : dget dist s = some (some 0)
  sound : ∀ v n, dget dist v = some (some n) → Reach g s v n
  settled : ∀ v ∈ visited, ∃ n, dget dist v = some (some n) ∧ ∀ m, Reach g s v m → n ≤ m
  rel : ∀ x ∈ visited, ∀ adjx, dget g x = some adjx → ∀ vc ∈ adjx,
    ∃ nx nv, dget dist x = some (some nx) ∧ dget dist vc.1 = some (some nv)
      ∧ nv ≤ nx + vc.2
  qsound : ∀ e ∈ queue, ∃ n ≤ e.1, dget dist e.2 = some (some n)
  qfresh : ∀ x, x ∉ visited → ∀ n, dget dist x = some (some n) → (n, x) ∈ queue
  prevI : ∀ x px, dget prev x = some (some px) →
    ∃ c nx, edgeCost g px x = some c ∧ dget dist px = some (some nx)
      ∧ dget dist x = some (some (nx + c)) ∧ px ∈ visited
  prevOrd : ∀ x px, dget prev x = some (some px) → px ∈ visited ∧
    (x ∈ visited → visited.indexOf x < visited.indexOf px)
  fin : ∀ x n, dget dist x = some (some n) → x = s ∨ ∃ px, dget prev x = some (some px)
  prevS : dget prev s = some none

theorem mem_rest_of_perm {queue rest : List (ℕ × String)} {m e : ℕ × String}
    (hperm : queue.Perm (m :: rest)) (he : e ∈ queue) (hne : e ≠ m) : e ∈ rest := by
  rcases List.mem_cons.mp (hperm.mem_iff.mp he) with h | h
  · exact absurd h hne
  · exact h

/-- When an unvisited router is popped, its tentative distance is exact: it is
realizable and no walk from the source does better. -/
theorem pop_settles {g : Graph} {s : String} {dist : DistMap} {prev : PrevMap}
    {queue rest : List (ℕ × String)} {visited : List String} {d : ℕ} {u : String}
    (inv : SPInv g s dist prev queue visited)
    (hpop : popMin queue = some ((d, u), rest)) (hu : u ∉ visited) :
    dget dist u = some (some d) ∧ ∀ m, Reach g s u m → d ≤ m := by
  have hperm := popMin_perm hpop
  have hmem : (d, u) ∈ queue := hperm.mem_iff.mpr (List.mem_cons_self _ _)
  obtain ⟨n, hnd, hDu⟩ := inv.qsound (d, u) hmem
  have hfr := inv.qfresh u hu n hDu
  have hdn : d ≤ n := popMin_min hpop (n, u) hfr
  have hnd' : n = d := Nat.le_antisymm hnd hdn
  rw [hnd'] at hDu
  refine ⟨hDu, ?_⟩
  intro m hm
  rcases reach_split hm visited with hvia | ⟨y, m₁, hyV, hvia, hle⟩
  · cases hvia with
    | refl =>
      have h0 : dget dist s = some (some 0) := inv.hs0
      rw [hDu] at h0
      have hd0 : d = 0 := by simpa using h0
      omega
    | @step v _ n' c hvia' hvV he =>
      obtain ⟨nv, hDv, hminv⟩ := inv.settled v hvV
      have hnv : nv ≤ n' := hminv n' hvia'.toReach
      obtain ⟨adjv, hgv, hav⟩ : ∃ adjv, dget g v = some adjv ∧ dget adjv u = some c := by
        cases hx : dget g v with
        | none => simp [edgeCost, hx] at he
        | some adjv => exact ⟨adjv, rfl, by simpa [edgeCost, hx] using he⟩
      obtain ⟨nx, nu', hDx, hDu', hrel⟩ :=
        inv.rel v hvV adjv hgv (u, c) (dget_mem hav)
      have h1 : nv = nx := by
        rw [hDv] at hDx
        simpa using hDx
      have h2 : d = nu' := by
        rw [hDu] at hDu'
        simpa using hDu'
      omega
  · cases hvia with
    | refl =>
      have hfr0 := inv.qfresh s hyV 0 inv.hs0
      have := popMin_min hpop (0, s) hfr0
      simp only at this
      omega
    | @step v _ n' c hvia' hvV he =>
      obtain ⟨nv, hDv, hminv⟩ := inv.settled v hvV
      have hnv : nv ≤ n' := hminv n' hvia'.toReach
      obtain ⟨adjv, hgv, hav⟩ : ∃ adjv, dget g v = some adjv ∧ dget adjv y = some c := by
        cases hx : dget g v with
        | none => simp [edgeCost, hx] at he
        | some adjv => exact ⟨adjv, rfl, by simpa [edgeCost, hx] using he⟩
      obtain ⟨nx, ny, hDx, hDy, hrel⟩ :=
        inv.rel v hvV adjv hgv (y, c) (dget_mem hav)
      have h1 : nv = nx := by
        rw [hDv] at hDx
        simpa using hDx
      have hfr2 := inv.qfresh y hyV ny hDy
      have := popMin_min hpop (ny, y) hfr2
      simp only at this
      omega

/-- Skipping a stale queue entry preserves the invariant. -/
theorem spinv_skip {g : Graph} {s : String} {dist : DistMap} {prev : PrevMap}
    {queue rest : List (ℕ × String)} {visited : List String} {d : ℕ} {u : String}
    (inv : SPInv g s dist prev queue visited)
    (hpop : popMin queue = some ((d, u), rest)) (hu : u ∈ visited) :
    SPInv g s dist prev rest visited := by
  have hperm := popMin_perm hpop
  refine ⟨inv.keysD, inv.keysP, inv.nodupV, inv.hs0, inv.sound, inv.settled,
    inv.rel, ?_, ?_, inv.prevI, inv.prevOrd, inv.fin, inv.prevS⟩
  · intro e he
    exact inv.qsound e (hperm.mem_iff.mpr (List.mem_cons_of_mem _ he))
  · intro x hx n hxd
    refine mem_rest_of_perm hperm (inv.qfresh x hx n hxd) ?_
    intro hcon
    have hxu : x = u := congrArg Prod.snd hcon
    exact hx (by rw [hxu]; exact hu)

/-- Visiting a router that has no adjacency entry preserves the invariant. -/
theorem spinv_visit_noadj {g : Graph} {s : String} {dist : DistMap} {prev : PrevMap}
    {queue rest : List (ℕ × String)} {visited : List String} {d : ℕ} {u : String}
    (inv : SPInv g s dist prev queue visited)
    (hpop : popMin queue = some ((d, u), rest)) (hu : u ∉ visited)
    (hgu : dget g u = none) :
    SPInv g s dist prev rest (u :: visited) := by
  obtain ⟨hDu, hmin⟩ := pop_settles inv hpop hu
  have hperm := popMin_perm hpop
  refine ⟨inv.keysD, inv.keysP, List.nodup_cons.mpr ⟨hu, inv.nodupV⟩, inv.hs0,
    inv.sound, ?_, ?_, ?_, ?_, ?_, ?_, inv.fin, inv.prevS⟩
  · intro v hv
    rcases List.mem_cons.mp hv with rfl | hv'
    · exact ⟨d, hDu, hmin⟩
    · exact inv.settled v hv'
  · intro x hx adjx hgx vc hvc
    rcases List.mem_cons.mp hx with rfl | hx'
    · rw [hgu] at hgx
      exact absurd hgx (by simp)
    · exact inv.rel x hx' adjx hgx vc hvc
  · intro e he
    exact inv.qsound e (hperm.mem_iff.mpr (List.mem_cons_of_mem _ he))
  · intro x hx n hxd
    have hxv : x ∉ visited := fun hc => hx (List.mem_cons_of_mem _ hc)
    have hxu : x ≠ u := fun hc => hx (hc ▸ List.mem_cons_self _ _)
    refine mem_rest_of_perm hperm (inv.qfresh x hxv n hxd) ?_
    intro hcon
    exact hxu (congrArg Prod.snd hcon)
  · intro x px hpx
    obtain ⟨c, nx, h1, h2, h3, h4⟩ := inv.prevI x px hpx
    exact ⟨c, nx, h1, h2, h3, List.mem_cons_of_mem _ h4⟩
  · intro x px hpx
    obtain ⟨hpxV, hord⟩ := inv.prevOrd x px hpx
    have hpxu : px ≠ u := fun hc => hu (hc ▸ hpxV)
    refine ⟨List.mem_cons_of_mem _ hpxV, ?_⟩
    intro hxm
    rcases List.mem_cons.mp hxm with rfl | hxm'
    · rw [List.indexOf_cons_self, List.indexOf_cons_ne _ (fun hc => hpxu hc.symm)]
      omega
    · have hxu : x ≠ u := fun hc => hu (hc ▸ hxm')
      rw [List.indexOf_cons_ne _ (fun hc => hxu hc.symm),
        List.indexOf_cons_ne _ (fun hc => hpxu hc.symm)]
      have := hord hxm'
      omega

/-- Visiting a router and relaxing all its outgoing edges preserves the
invariant. -/
theorem spinv_visit_relax {g : Graph} {s : String} {dist dist' : DistMap}
    {prev prev' : PrevMap} {queue rest queue' : List (ℕ × String)}
    {visited : List String} {d : ℕ} {u : String} {adj : List (String × ℕ)}
    (hwf : WFGraph g)
    (inv : SPInv g s dist prev queue visited)
    (hpop : popMin queue = some ((d, u), rest)) (hu : u ∉ visited)
    (hgu : dget g u = some adj)
    (hrel : relaxNeighbors (u :: visited) d u adj dist prev rest
      = some (dist', prev', queue')) :
    SPInv g s dist' prev' queue' (u :: visited) := by
  obtain ⟨hDu, hmin⟩ := pop_settles inv hpop hu
  have hperm := popMin_perm hpop
  have huv : u ∈ u :: visited := List.mem_cons_self _ _
  have hfrozen := relax_frozen hrel
  have hDu' : dget dist' u = some (some d) := by
    rw [(hfrozen u huv).1]; exact hDu
  have hkeys := relax_keys hrel (inv.keysD.trans inv.keysP.symm)
  have huchar := relax_update_char hrel
  have hadjnd : (adj.map Prod.fst).Nodup := hwf.2 (u, adj) (dget_mem hgu)
  have hedge : ∀ vc ∈ adj, edgeCost g u vc.1 = some vc.2 := by
    intro vc hvc
    obtain ⟨v, c⟩ := vc
    simp only [edgeCost, hgu, Option.bind_some]
    exact dget_of_mem_nodup hadjnd hvc
  have hreachU : Reach g s u d := inv.sound u d hDu
  refine ⟨hkeys.1.trans inv.keysD, hkeys.2.trans inv.keysP,
    List.nodup_cons.mpr ⟨hu, inv.nodupV⟩, (relax_zero hrel s inv.hs0).1,
    ?_, ?_, ?_, ?_, ?_, ?_, ?_, ?_, ?_⟩
  · -- sound
    intro v n hv
    rcases huchar v with ⟨h1, _⟩ | ⟨_, c, hmem, h1, _⟩
    · rw [h1] at hv
      exact inv.sound v n hv
    · rw [h1] at hv
      have hn : n = d + c := by simpa using hv.symm
      rw [hn]
      exact Reach.step hreachU (hedge (v, c) hmem)
  · -- settled
    intro v hv
    rcases List.mem_cons.mp hv with rfl | hv'
    · exact ⟨d, hDu', hmin⟩
    · obtain ⟨n, hDv, hm⟩ := inv.settled v hv'
      exact ⟨n, by rw [(hfrozen v (List.mem_cons_of_mem _ hv')).1]; exact hDv, hm⟩
  · -- rel
    intro x hx adjx hgx vc hvc
    rcases List.mem_cons.mp hx with rfl | hx'
    · have hadjx : adjx = adj := by
        rw [hgu] at hgx
        simpa using hgx.symm
      subst hadjx
      by_cases hvcv : vc.1 ∈ x :: visited
      · rcases List.mem_cons.mp hvcv with hvc1 | hvc2
        · refine ⟨d, d, hDu', ?_, Nat.le_add_right d vc.2⟩
          rw [hvc1]
          exact hDu'
        · obtain ⟨nv₀, hDv₀, hminv₀⟩ := inv.settled vc.1 hvc2
          refine ⟨d, nv₀, hDu', ?_, ?_⟩
          · rw [(hfrozen vc.1 (List.mem_cons_of_mem _ hvc2)).1]
            exact hDv₀
          · exact hminv₀ (d + vc.2) (Reach.step hreachU (hedge vc hvc))
      · obtain ⟨nv, hle, hDv'⟩ := relax_relaxed hrel vc hvc hvcv
        exact ⟨d, nv, hDu', hDv', hle⟩
    · obtain ⟨nx, nv, hDx, hDv, hle⟩ := inv.rel x hx' adjx hgx vc hvc
      obtain ⟨nv', hnv', hDv'⟩ := relax_mono hrel vc.1 nv hDv
      refine ⟨nx, nv', ?_, hDv', Nat.le_trans hnv' hle⟩
      rw [(hfrozen x (List.mem_cons_of_mem _ hx')).1]
      exact hDx
  · -- qsound
    refine relax_qsound hrel ?_
    intro e he
    exact inv.qsound e (hperm.mem_iff.mpr (List.mem_cons_of_mem _ he))
  · -- qfresh
    refine relax_fresh hrel ?_
    intro x hx n hxd
    have hxv : x ∉ visited := fun hc => hx (List.mem_cons_of_mem _ hc)
    have hxu : x ≠ u := fun hc => hx (hc ▸ List.mem_cons_self _ _)
    refine mem_rest_of_perm hperm (inv.qfresh x hxv n hxd) ?_
    intro hcon
    exact hxu (congrArg Prod.snd hcon)
  · -- prevI
    intro x px hpx
    rcases huchar x with ⟨h1, h2⟩ | ⟨hnx, c, hmem, h1, h2⟩
    · rw [h2] at hpx
      obtain ⟨c, nx, he1, he2, he3, he4⟩ := inv.prevI x px hpx
      refine ⟨c, nx, he1, ?_, ?_, List.mem_cons_of_mem _ he4⟩
      · rw [(hfrozen px (List.mem_cons_of_mem _ he4)).1]
        exact he2
      · rw [h1]
        exact he3
    · rw [h2] at hpx
      have hpxu : px = u := by simpa using hpx.symm
      subst hpxu
      exact ⟨c, d, hedge (x, c) hmem, hDu', h1, huv⟩
  · -- prevOrd
    intro x px hpx
    rcases huchar x with ⟨h1, h2⟩ | ⟨hnx, c, hmem, h1, h2⟩
    · rw [h2] at hpx
      obtain ⟨hpxV, hord⟩ := inv.prevOrd x px hpx
      have hpxu : px ≠ u := fun hc => hu (hc ▸ hpxV)
      refine ⟨List.mem_cons_of_mem _ hpxV, ?_⟩
      intro hxm
      rcases List.mem_cons.mp hxm with rfl | hxm'
      · rw [List.indexOf_cons_self, List.indexOf_cons_ne _ (fun hc => hpxu hc.symm)]
        omega
      · have hxu : x ≠ u := fun hc => hu (hc ▸ hxm')
        rw [List.indexOf_cons_ne _ (fun hc => hxu hc.symm),
          List.indexOf_cons_ne _ (fun hc => hpxu hc.symm)]
        have := hord hxm'
        omega
    · rw [h2] at hpx
      have hpxu : px = u := by simpa using hpx.symm
      subst hpxu
      exact ⟨huv, fun hxm => absurd hxm hnx⟩
  · -- fin
    intro x n hx
    rcases huchar x with ⟨h1, h2⟩ | ⟨hnx, c, hmem, h1, h2⟩
    · rw [h1] at hx
      rcases inv.fin x n hx with hxs | ⟨px, hpx⟩
      · exact Or.inl hxs
      · exact Or.inr ⟨px, by rw [h2]; exact hpx⟩
    · exact Or.inr ⟨u, h2⟩
  · -- prevS
    rw [(relax_zero hrel s inv.hs0).2]
    exact inv.prevS

/-! ## Running the loop -/

theorem spLoop_succ_empty {g : Graph} {fuel : ℕ} {dist : DistMap} {prev : PrevMap}
    {queue : List (ℕ × String)} {visited : List String}
    (hpop : popMin queue = none) :
    spLoop g (fuel + 1) dist prev queue visited = some (dist, prev) := by
  simp [spLoop, hpop]

theorem spLoop_succ_skip {g : Graph} {fuel : ℕ} {dist : DistMap} {prev : PrevMap}
    {queue rest : List (ℕ × String)} {visited : List String} {d : ℕ} {u : String}
    (hpop : popMin queue = some ((d, u), rest)) (hu : u ∈ visited) :
    spLoop g (fuel + 1) dist prev queue visited
      = spLoop g fuel dist prev rest visited := by
  simp [spLoop, hpop, hu]

theorem spLoop_succ_noadj {g : Graph} {fuel : ℕ} {dist : DistMap} {prev : PrevMap}
    {queue rest : List (ℕ × String)} {visited : List String} {d : ℕ} {u : String}
    (hpop : popMin queue = some ((d, u), rest)) (hu : u ∉ visited)
    (hgu : dget g u = none) :
    spLoop g (fuel + 1) dist prev queue visited
      = spLoop g fuel dist prev rest (u :: visited) := by
  simp [spLoop, hpop, hu, hgu]

theorem spLoop_succ_relax_some {g : Graph} {fuel : ℕ} {dist dist' : DistMap}
    {prev prev' : PrevMap} {queue rest queue' : List (ℕ × String)}
    {visited : List String} {d : ℕ} {u : String} {adj : List (String × ℕ)}
    (hpop : popMin queue = some ((d, u), rest)) (hu : u ∉ visited)
    (hgu : dget g u = some adj)
    (hrel : relaxNeighbors (u :: visited) d u adj dist prev rest
      = some (dist', prev', queue')) :
    spLoop g (fuel + 1) dist prev queue visited
      = spLoop g fuel dist' prev' queue' (u :: visited) := by
  simp [spLoop, hpop, hu, hgu, hrel]

theorem spLoop_succ_relax_none {g : Graph} {fuel : ℕ} {dist : DistMap}
    {prev : PrevMap} {queue rest : List (ℕ × String)}
    {visited : List String} {d : ℕ} {u : String} {adj : List (String × ℕ)}
    (hpop : popMin queue = some ((d, u), rest)) (hu : u ∉ visited)
    (hgu : dget g u = some adj)
    (hrel : relaxNeighbors (u :: visited) d u adj dist prev rest = none) :
    spLoop g (fuel + 1) dist prev queue visited = none := by
  simp [spLoop, hpop, hu, hgu, hrel]

/-- Main loop run: from any state satisfying the invariant, with fuel above
the measure, the loop terminates without `KeyError` in a state that still
satisfies the invariant and has an empty frontier. -/
theorem spLoop_run {g : Graph} {s : String} (hwf : WFGraph g)
    (hcl : NeighborClosed g) :
    ∀ (fuel : ℕ) {dist prev queue visited},
      SPInv g s dist prev queue visited →
      spMeasure g visited queue < fuel →
      ∃ distF prevF visitedF,
        spLoop g fuel dist prev queue visited = some (distF, prevF)
          ∧ SPInv g s distF prevF [] visitedF
          ∧ ∀ x ∈ visited, x ∈ visitedF := by
  intro fuel
  induction fuel with
  | zero =>
    intro dist prev queue visited _ hm
    omega
  | succ fuel ih =>
    intro dist prev queue visited inv hm
    cases hpop : popMin queue with
    | none =>
      refine ⟨dist, prev, visited, spLoop_succ_empty hpop, ?_, fun x hx => hx⟩
      have hq : queue = [] := (popMin_eq_none_iff queue).mp hpop
      subst hq
      exact inv
    | some p =>
      obtain ⟨⟨d, u⟩, rest⟩ := p
      have hlen : queue.length = rest.length + 1 := by
        have := (popMin_perm hpop).length_eq
        simpa using this
      by_cases hu : u ∈ visited
      · have inv' := spinv_skip inv hpop hu
        have hm' : spMeasure g visited rest < fuel := by
          simp only [spMeasure] at hm ⊢
          omega
        obtain ⟨dF, pF, vF, hrun, hinvF, hsub⟩ := ih inv' hm'
        exact ⟨dF, pF, vF, (spLoop_succ_skip hpop hu).trans hrun, hinvF, hsub⟩
      · cases hgu : dget g u with
        | none =>
          have inv' := spinv_visit_noadj inv hpop hu hgu
          have hmono := sumDeg_mono g u visited
          have hm' : spMeasure g (u :: visited) rest < fuel := by
            simp only [spMeasure] at hm ⊢
            omega
          obtain ⟨dF, pF, vF, hrun, hinvF, hsub⟩ := ih inv' hm'
          exact ⟨dF, pF, vF, (spLoop_succ_noadj hpop hu hgu).trans hrun, hinvF,
            fun x hx => hsub x (List.mem_cons_of_mem _ hx)⟩
        | some adj =>
          have hks : ∀ vc ∈ adj, vc.1 ∈ dist.map Prod.fst := by
            intro vc hvc
            rw [inv.keysD]
            exact hcl u adj hgu vc hvc
          cases hrel : relaxNeighbors (u :: visited) d u adj dist prev rest with
          | none =>
            have := @relax_isSome (u :: visited) d u adj dist prev rest hks
            rw [hrel] at this
            exact absurd this (by simp)
          | some t =>
            obtain ⟨dist', prev', queue'⟩ := t
            have inv' := spinv_visit_relax hwf inv hpop hu hgu hrel
            have hql := relax_queue_len hrel
            have hsv := sumDeg_visit hgu hu
            have hm' : spMeasure g (u :: visited) queue' < fuel := by
              simp only [spMeasure] at hm ⊢
              omega
            obtain ⟨dF, pF, vF, hrun, hinvF, hsub⟩ := ih inv' hm'
            exact ⟨dF, pF, vF,
              (spLoop_succ_relax_some hpop hu hgu hrel).trans hrun, hinvF,
              fun x hx => hsub x (List.mem_cons_of_mem _ hx)⟩

theorem initDist_keys (g : Graph) : (initDist g).map Prod.fst = g.map Prod.fst := by
  simp [initDist]

theorem initPrev_keys (g : Graph) : (initPrev g).map Prod.fst = g.map Prod.fst := by
  simp [initPrev]

/-- The state just before the loop satisfies the invariant. -/
theorem spinv_init {g : Graph} {s : String} (hs : s ∈ routers g) :
    SPInv g s (dictSet (initDist g) s (some 0)) (initPrev g) [(0, s)] [] := by
  have hsk : s ∈ (initDist g).map Prod.fst := by rw [initDist_keys]; exact hs
  have hd0 : ∀ x, x ≠ s →
      dget (dictSet (initDist g) s (some 0)) x = (dget g x).map (fun _ => none) := by
    intro x hx
    rw [dget_dictSet_ne _ _ hx]
    exact dget_map_const g none x
  have hnofin : ∀ x n, dget (dictSet (initDist g) s (some 0)) x = some (some n) →
      x = s ∧ n = 0 := by
    intro x n hx
    by_cases hxs : x = s
    · subst hxs
      rw [dget_dictSet_self] at hx
      have : (some 0 : Option ℕ) = some n := by simpa using hx
      simp only [Option.some.injEq] at this
      exact ⟨rfl, this.symm⟩
    · rw [hd0 x hxs] at hx
      cases hgx : dget g x with
      | none => rw [hgx] at hx; simp at hx
      | some a => rw [hgx] at hx; simp at hx
  refine ⟨?_, initPrev_keys g, List.nodup_nil, dget_dictSet_self _ _ _, ?_, ?_, ?_,
    ?_, ?_, ?_, ?_, ?_, ?_⟩
  · exact (dictSet_keys_of_mem hsk _).trans (initDist_keys g)
  · intro v n hv
    obtain ⟨rfl, rfl⟩ := hnofin v n hv
    exact Reach.refl
  · intro v hv
    simp at hv
  · intro x hx
    simp at hx
  · intro e he
    have : e = (0, s) := by simpa using he
    subst this
    exact ⟨0, Nat.le_refl 0, dget_dictSet_self _ _ _⟩
  · intro x _ n hxd
    obtain ⟨rfl, rfl⟩ := hnofin x n hxd
    simp
  · intro x px hpx
    rw [show dget (initPrev g) x = (dget g x).map (fun _ => none) from
      dget_map_const g none x] at hpx
    cases hgx : dget g x with
    | none => rw [hgx] at hpx; simp at hpx
    | some a => rw [hgx] at hpx; simp at hpx
  · intro x px hpx
    rw [show dget (initPrev g) x = (dget g x).map (fun _ => none) from
      dget_map_const g none x] at hpx
    cases hgx : dget g x with
    | none => rw [hgx] at hpx; simp at hpx
    | some a => rw [hgx] at hpx; simp at hpx
  · intro x n hx
    exact Or.inl (hnofin x n hx).1
  · rw [show dget (initPrev g) s = (dget g s).map (fun _ => none) from
      dget_map_const g none s]
    obtain ⟨a, ha⟩ := Option.isSome_iff_exists.mp (dget_isSome_of_mem_keys hs)
    rw [ha]
    rfl

/-- Function `find_shortest_path` terminates successfully and its final state satisfies
the loop invariant with an empty frontier. -/
theorem find_shortest_path_spec {g : Graph} {s : String} (hwf : WFGraph g)
    (hcl : NeighborClosed g) (hs : s ∈ routers g) :
    ∃ distF prevF visitedF,
      find_shortest_path g s = some (distF, prevF)
        ∧ SPInv g s distF prevF [] visitedF := by
  have hinit := spinv_init hs
  have hm : spMeasure g [] [(0, s)] < 2 + sumDeg g [] := by
    simp [spMeasure]
  obtain ⟨dF, pF, vF, hrun, hinvF, _⟩ := spLoop_run hwf hcl (2 + sumDeg g []) hinit hm
  exact ⟨dF, pF, vF, hrun, hinvF⟩

/-! ## Facts about the final state -/

theorem final_s_visited {g : Graph} {s : String} {distF : DistMap} {prevF : PrevMap}
    {visitedF : List String} (hinv : SPInv g s distF prevF [] visitedF) :
    s ∈ visitedF := by
  by_contra hs
  have := hinv.qfresh s hs 0 hinv.hs0
  simp at this

theorem final_unvisited_inf {g : Graph} {s : String} {distF : DistMap}
    {prevF : PrevMap} {visitedF : List String}
    (hinv : SPInv g s distF prevF [] visitedF) {v : String} (hv : v ∉ visitedF) :
    ∀ n, dget distF v ≠ some (some n) := by
  intro n hn
  have := hinv.qfresh v hv n hn
  simp at this

theorem final_unvisited_unreach {g : Graph} {s : String} {distF : DistMap}
    {prevF : PrevMap} {visitedF : List String}
    (hinv : SPInv g s distF prevF [] visitedF) {v : String} (hv : v ∉ visitedF) :
    ∀ m, ¬ Reach g s v m := by
  intro m hm
  have hstep : ∀ (y : String) (n' c : ℕ) (x : String), x ∈ visitedF →
      edgeCost g x y = some c → False ∨ (∃ ny, dget distF y = some (some ny)) := by
    intro y n' c x hxV he
    obtain ⟨nx, hDx, _⟩ := hinv.settled x hxV
    obtain ⟨adjx, hgx, hax⟩ : ∃ adjx, dget g x = some adjx ∧ dget adjx y = some c := by
      cases hgx : dget g x with
      | none => simp [edgeCost, hgx] at he
      | some adjx => exact ⟨adjx, rfl, by simpa [edgeCost, hgx] using he⟩
    obtain ⟨nx', ny, _, hDy, _⟩ := hinv.rel x hxV adjx hgx (y, c) (dget_mem hax)
    exact Or.inr ⟨ny, hDy⟩
  rcases reach_split hm visitedF with hvia | ⟨y, m₁, hyV, hvia, _⟩
  · cases hvia with
    | refl => exact hv (final_s_visited hinv)
    | @step x _ n' c hvia' hxV he =>
      rcases hstep v n' c x hxV he with hf | ⟨nv, hDv⟩
      · exact hf
      · exact final_unvisited_inf hinv hv nv hDv
  · cases hvia with
    | refl => exact hyV (final_s_visited hinv)
    | @step x _ n' c hvia' hxV he =>
      rcases hstep y n' c x hxV he with hf | ⟨ny, hDy⟩
      · exact hf
      · exact final_unvisited_inf hinv hyV ny hDy

theorem final_reach_visited {g : Graph} {s : String} {distF : DistMap}
    {prevF : PrevMap} {visitedF : List String}
    (hinv : SPInv g s distF prevF [] visitedF) {v : String} {m : ℕ}
    (hm : Reach g s v m) : v ∈ visitedF := by
  by_contra hv
  exact final_unvisited_unreach hinv hv m hm

/-- C1.  On a well-formed, neighbor-closed graph (edge weights are `ℕ`, hence
non-negative) and a start router that is a key of the graph,
`find_shortest_path` returns normally, and the returned distances dict maps
every router reachable from the start to the minimal walk cost and every
unreachable router to `float('infinity')` (here: `none`). -/
theorem find_shortest_path_correct (g : Graph) (s : String) (hwf : WFGraph g)
    (hcl : NeighborClosed g) (hs : s ∈ routers g) :
    ∃ distF prevF, find_shortest_path g s = some (distF, prevF) ∧
      ∀ v ∈ routers g,
        (∀ n, dget distF v = some (some n) ↔
          (Reach g s v n ∧ ∀ m, Reach g s v m → n ≤ m)) ∧
        (dget distF v = some none ↔ ∀ n, ¬ Reach g s v n) := by
  obtain ⟨distF, prevF, visitedF, hrun, hinv⟩ := find_shortest_path_spec hwf hcl hs
  refine ⟨distF, prevF, hrun, ?_⟩
  intro v hv
  have hvk : v ∈ distF.map Prod.fst := by rw [hinv.keysD]; exact hv
  obtain ⟨dv, hdv⟩ := Option.isSome_iff_exists.mp (dget_isSome_of_mem_keys hvk)
  constructor
  · intro n
    constructor
    · intro hn
      by_cases hvF : v ∈ visitedF
      · obtain ⟨n₀, hD₀, hm₀⟩ := hinv.settled v hvF
        have hnn : n = n₀ := by
          rw [hn] at hD₀
          simpa using hD₀
        subst hnn
        exact ⟨hinv.sound v n hn, hm₀⟩
      · exact absurd hn (final_unvisited_inf hinv hvF n)
    · rintro ⟨hr, hmin⟩
      have hvF : v ∈ visitedF := final_reach_visited hinv hr
      obtain ⟨n₀, hD₀, hm₀⟩ := hinv.settled v hvF
      have h1 : n ≤ n₀ := hmin n₀ (hinv.sound v n₀ hD₀)
      have h2 : n₀ ≤ n := hm₀ n hr
      have : n₀ = n := Nat.le_antisymm h2 h1
      rw [← this]
      exact hD₀
  · constructor
    · intro hD n hr
      have hvF : v ∈ visitedF := final_reach_visited hinv hr
      obtain ⟨n₀, hD₀, _⟩ := hinv.settled v hvF
      rw [hD] at hD₀
      simp at hD₀
    · intro hnr
      have hvF : v ∉ visitedF := by
        intro hvF
        obtain ⟨n₀, hD₀, _⟩ := hinv.settled v hvF
        exact hnr n₀ (hinv.sound v n₀ hD₀)
      cases dvv : dv with
      | none => rw [dvv] at hdv; exact hdv
      | some n =>
        rw [dvv] at hdv
        exact absurd hdv (final_unvisited_inf hinv hvF n)

/-! ## `DijkstraAlgorithm.reconstruct_path`

The Python `while current is not None:` loop inserts at the front and steps
to `previous[current]`.  The loop is modelled with fuel `len(previous) + 1`;
on the predecessor maps the algorithm produces, the chain of predecessors is
acyclic and shorter than that, so the fuel never runs out.  `none` models a
run that raises `KeyError` (or would never terminate). -/

def reconWalk (prev : PrevMap) : ℕ → String → List String → Option (List String)
  | 0, _, _ => none
  | fuel + 1, current, acc =>
    match dget prev current with
    | none => none
    | some none => some (current :: acc)
    | some (some p) => reconWalk prev fuel p (current :: acc)

/-- Embedding of `DijkstraAlgorithm.reconstruct_path(previous, start, end)`.  Result:
`some (some path)` for a found path, `some none` for Python's `None`
("no path exists"), `none` for an uncaught `KeyError`. -/
def reconstruct_path (prev : PrevMap) (start e : String) :
    Option (Option (List String)) :=
  match reconWalk prev (prev.length + 1) e [] with
  | none => none
  | some path => if path.head? = some start then some (some path) else some none

theorem reconWalk_succ_err {prev : PrevMap} {fuel : ℕ} {v : String}
    {acc : List String} (hpv : dget prev v = none) :
    reconWalk prev (fuel + 1) v acc = none := by
  simp [reconWalk, hpv]

theorem reconWalk_succ_stop {prev : PrevMap} {fuel : ℕ} {v : String}
    {acc : List String} (hpv : dget prev v = some none) :
    reconWalk prev (fuel + 1) v acc = some (v :: acc) := by
  simp [reconWalk, hpv]

theorem reconWalk_succ_step {prev : PrevMap} {fuel : ℕ} {v p : String}
    {acc : List String} (hpv : dget prev v = some (some p)) :
    reconWalk prev (fuel + 1) v acc = reconWalk prev fuel p (v :: acc) := by
  simp [reconWalk, hpv]

theorem reconWalk_acc (prev : PrevMap) :
    ∀ (fuel : ℕ) (v : String) (acc : List String),
      reconWalk prev fuel v acc = (reconWalk prev fuel v []).map (· ++ acc) := by
  intro fuel
  induction fuel with
  | zero => intro v acc; simp [reconWalk]
  | succ fuel ih =>
    intro v acc
    cases hpv : dget prev v with
    | none => rw [reconWalk_succ_err hpv, reconWalk_succ_err hpv]; rfl
    | some pv =>
      cases pv with
      | none => rw [reconWalk_succ_stop hpv, reconWalk_succ_stop hpv]; simp
      | some p =>
        rw [reconWalk_succ_step hpv, reconWalk_succ_step hpv, ih p (v :: acc),
          ih p [v]]
        cases reconWalk prev fuel p [] with
        | none => rfl
        | some l => simp

theorem head?_append_single {l : List String} {v s : String}
    (h : l.head? = some s) : (l ++ [v]).head? = some s := by
  cases l with
  | nil => simp at h
  | cons a t => simpa using h

/-- Walking the final predecessor map from any visited router yields a path
from the source to it whose hop-by-hop cost is exactly its final distance. -/
theorem reconWalk_spec {g : Graph} {s : String} {distF : DistMap} {prevF : PrevMap}
    {visitedF : List String} (hinv : SPInv g s distF prevF [] visitedF) :
    ∀ (fuel : ℕ) (v : String), v ∈ visitedF →
      visitedF.length - visitedF.indexOf v ≤ fuel →
      ∀ n, dget distF v = some (some n) →
      ∃ l, reconWalk prevF fuel v [] = some l ∧ l.head? = some s
        ∧ l.getLast? = some v ∧ pathCost g l = some n := by
  intro fuel
  induction fuel with
  | zero =>
    intro v hv hrank n _
    have : visitedF.indexOf v < visitedF.length := List.indexOf_lt_length.mpr hv
    omega
  | succ fuel ih =>
    intro v hv hrank n hn
    have hvk : v ∈ prevF.map Prod.fst := by
      rw [hinv.keysP, ← hinv.keysD]
      exact dget_some_mem_keys hn
    obtain ⟨pv, hpv⟩ := Option.isSome_iff_exists.mp (dget_isSome_of_mem_keys hvk)
    cases pv with
    | none =>
      rcases hinv.fin v n hn with rfl | ⟨px, hpx⟩
      · have hn0 : n = 0 := by
          have h0 := hinv.hs0
          rw [hn] at h0
          simpa using h0
        subst hn0
        refine ⟨[v], reconWalk_succ_stop hpv, rfl, rfl, rfl⟩
      · rw [hpx] at hpv
        simp at hpv
    | some pu =>
      obtain ⟨c, npu, hec, hDpu, hDv, hpuV⟩ := hinv.prevI v pu hpv
      have hn' : n = npu + c := by
        rw [hn] at hDv
        simpa using hDv
      obtain ⟨_, hord⟩ := hinv.prevOrd v pu hpv
      have hidx : visitedF.indexOf v < visitedF.indexOf pu := hord hv
      have hltpu : visitedF.indexOf pu < visitedF.length :=
        List.indexOf_lt_length.mpr hpuV
      have hrank' : visitedF.length - visitedF.indexOf pu ≤ fuel := by omega
      obtain ⟨l, hl, hhead, hlast, hcost⟩ := ih pu hpuV hrank' npu hDpu
      have hlne : l ≠ [] := by
        intro hc
        rw [hc] at hhead
        simp at hhead
      refine ⟨l ++ [v], ?_, head?_append_single hhead, ?_, ?_⟩
      · rw [reconWalk_succ_step hpv, reconWalk_acc prevF fuel pu [v], hl]
        rfl
      · exact List.getLast?_concat l
      · rw [hn']
        exact pathCost_snoc hec l npu hlne hlast hcost

theorem reconWalk_last (prev : PrevMap) :
    ∀ (fuel : ℕ) (v : String) (l : List String),
      reconWalk prev fuel v [] = some l → l ≠ [] ∧ l.getLast? = some v := by
  intro fuel
  induction fuel with
  | zero => intro v l h; simp [reconWalk] at h
  | succ fuel ih =>
    intro v l h
    cases hpv : dget prev v with
    | none => rw [reconWalk_succ_err hpv] at h; simp at h
    | some pv =>
      cases pv with
      | none =>
        rw [reconWalk_succ_stop hpv] at h
        have : [v] = l := by simpa using h
        subst this
        exact ⟨by simp, rfl⟩
      | some p =>
        rw [reconWalk_succ_step hpv, reconWalk_acc prev fuel p [v]] at h
        cases hw : reconWalk prev fuel p [] with
        | none => rw [hw] at h; simp at h
        | some lp =>
          rw [hw] at h
          have : lp ++ [v] = l := by simpa using h
          subst this
          exact ⟨by simp, List.getLast?_concat lp⟩

theorem reconstruct_path_some {prev : PrevMap} {start e : String} {l : List String}
    (h : reconstruct_path prev start e = some (some l)) :
    l ≠ [] ∧ l.head? = some start ∧ l.getLast? = some e := by
  unfold reconstruct_path at h
  cases hw : reconWalk prev (prev.length + 1) e [] with
  | none => rw [hw] at h; simp at h
  | some path =>
    rw [hw] at h
    have h' : (if path.head? = some start then some (some path) else some none
        : Option (Option (List String))) = some (some l) := h
    by_cases hh : path.head? = some start
    · rw [if_pos hh] at h'
      have : path = l := by simpa using h'
      subst this
      obtain ⟨h1, h2⟩ := reconWalk_last prev _ e path hw
      exact ⟨h1, hh, h2⟩
    · rw [if_neg hh] at h'
      simp at h'

/-- On the final state of a run, `reconstruct_path` succeeds for every visited
destination and the reconstructed path costs exactly the final distance. -/
theorem reconstruct_path_reachable {g : Graph} {s : String} {distF : DistMap}
    {prevF : PrevMap} {visitedF : List String}
    (hinv : SPInv g s distF prevF [] visitedF)
    {dest : String} {n : ℕ} (hdV : dest ∈ visitedF)
    (hd : dget distF dest = some (some n)) :
    ∃ l, reconstruct_path prevF s dest = some (some l)
      ∧ l.head? = some s ∧ l.getLast? = some dest ∧ pathCost g l = some n := by
  have hsub : visitedF ⊆ prevF.map Prod.fst := by
    intro x hx
    obtain ⟨nx, hDx, _⟩ := hinv.settled x hx
    rw [hinv.keysP, ← hinv.keysD]
    exact dget_some_mem_keys hDx
  have hlenV : visitedF.length ≤ prevF.length := by
    have h1 := List.Subperm.length_le (List.subperm_of_subset hinv.nodupV hsub)
    simpa using h1
  have hrank : visitedF.length - visitedF.indexOf dest ≤ prevF.length + 1 := by
    omega
  obtain ⟨l, hl, hhead, hlast, hcost⟩ :=
    reconWalk_spec hinv (prevF.length + 1) dest hdV hrank n hd
  refine ⟨l, ?_, hhead, hlast, hcost⟩
  unfold reconstruct_path
  rw [hl]
  show (if l.head? = some s then some (some l) else some none
    : Option (Option (List String))) = some (some l)
  rw [if_pos hhead]

/-- C2.  For a well-formed, neighbor-closed graph, a start router in the graph
and any destination reachable from it: `find_shortest_path` returns
`(distances, previous)`, `reconstruct_path previous start dest` returns a
path, and the hop-by-hop sum of the edge costs of that path equals
`distances[dest]` exactly. -/
theorem reconstruct_path_exact (g : Graph) (s dest : String) (hwf : WFGraph g)
    (hcl : NeighborClosed g) (hs : s ∈ routers g)
    (hreach : ∃ m, Reach g s dest m) :
    ∃ distF prevF path n,
      find_shortest_path g s = some (distF, prevF)
        ∧ reconstruct_path prevF s dest = some (some path)
        ∧ dget distF dest = some (some n)
        ∧ pathCost g path = some n := by
  obtain ⟨m, hm⟩ := hreach
  obtain ⟨distF, prevF, visitedF, hrun, hinv⟩ := find_shortest_path_spec hwf hcl hs
  have hdV : dest ∈ visitedF := final_reach_visited hinv hm
  obtain ⟨n, hD, _⟩ := hinv.settled dest hdV
  obtain ⟨l, hrp, hhead, hlast, hcost⟩ := reconstruct_path_reachable hinv hdV hD
  exact ⟨distF, prevF, l, n, hrun, hrp, hD, hcost⟩

theorem dget_eq_none_of_not_mem {α : Type} {l : List (String × α)} {k : String}
    (h : k ∉ l.map Prod.fst) : dget l k = none := by
  cases hx : dget l k with
  | none => rfl
  | some v => exact absurd (dget_some_mem_keys hx) h

/-! ## `DijkstraAlgorithm.calculate_all_paths` -/

/-- Per-source slot of the `all_results` dict: `distances`, `previous` and the
eagerly reconstructed `paths` (Python stores `None` as the no-path value). -/
structure SourceResult where
  distances : DistMap
  previous : PrevMap
  paths : List (String × Option (List String))

/-- The inner `for dest in self.routers: if dest != router:` loop. -/
def buildPaths (p : PrevMap) (router : String) :
    List String → Option (List (String × Option (List String)))
  | [] => some []
  | dest :: rest =>
    if dest = router then buildPaths p router rest
    else
      match reconstruct_path p router dest with
      | none => none
      | some pathOpt =>
        match buildPaths p router rest with
        | none => none
        | some l => some ((dest, pathOpt) :: l)

/-- The outer `for router in self.routers:` loop of `calculate_all_paths`. -/
def capGo (g : Graph) : List String → Option (List (String × SourceResult))
  | [] => some []
  | r :: rest =>
    match find_shortest_path g r with
    | none => none
    | some dp =>
      match buildPaths dp.2 r (routers g) with
      | none => none
      | some paths =>
        match capGo g rest with
        | none => none
        | some l => some ((r, ⟨dp.1, dp.2, paths⟩) :: l)

/-- Embedding of `DijkstraAlgorithm.calculate_all_paths()` (with `verbose=False`). -/
def calculate_all_paths (g : Graph) : Option (List (String × SourceResult)) :=
  capGo g (routers g)

/-- C8.  `calculate_all_paths` mutates nothing on the instance (its embedding
needs no state threading: the method only reads `self.graph`/`self.routers`),
so two successive calls on the same instance return equal results — in
particular equal distance values and equal path costs for every
(source, destination) pair. -/
theorem calculate_all_paths_idempotent (g : Graph)
    (r₁ r₂ : Option (List (String × SourceResult)))
    (h₁ : r₁ = calculate_all_paths g) (h₂ : r₂ = calculate_all_paths g) :
    r₁ = r₂ := h₁.trans h₂.symm

/-! ## C3: behavior on a source or destination absent from the topology -/

/-- C3 counterexample.  On the topology `{"A": {}}` with the absent source
`"X"`, `find_shortest_path` raises nothing and returns distances that mark
the absent source as reachable with cost `0` — there is no fail-fast
InvalidNode error. -/
theorem find_shortest_path_absent_source_zero :
    find_shortest_path [("A", [])] "X"
        = some ([("A", none), ("X", some 0)], [("A", none)])
      ∧ dget [("A", (none : Option ℕ)), ("X", some 0)] "X" = some (some 0) :=
  ⟨rfl, rfl⟩

/-- C3 amended.  An absent source does not fail: `find_shortest_path` returns
normally and silently records distance `0` for it (because
`distances[start] = 0` inserts the missing key).  An absent destination does
fail fast: `reconstruct_path` raises `KeyError` on its first lookup
`previous[end]`. -/
theorem invalid_node_behavior :
    (∀ (g : Graph) (s : String), s ∉ routers g →
      ∃ d p, find_shortest_path g s = some (d, p) ∧ dget d s = some (some 0))
    ∧ (∀ (prev : PrevMap) (start e : String), e ∉ prev.map Prod.fst →
      reconstruct_path prev start e = none) := by
  constructor
  · intro g s hs
    refine ⟨dictSet (initDist g) s (some 0), initPrev g, ?_, dget_dictSet_self _ _ _⟩
    unfold find_shortest_path
    have h2 : (2 : ℕ) + sumDeg g [] = (1 + sumDeg g []) + 1 := by omega
    rw [h2, spLoop_succ_noadj (show popMin [(0, s)] = some ((0, s), []) from rfl)
      (by simp) (dget_eq_none_of_not_mem hs)]
    have h1 : (1 : ℕ) + sumDeg g [] = sumDeg g [] + 1 := by omega
    rw [h1, spLoop_succ_empty (show popMin ([] : List (ℕ × String)) = none from rfl)]
  · intro prev start e he
    unfold reconstruct_path
    rw [reconWalk_succ_err (dget_eq_none_of_not_mem he)]

theorem invalid_node_behavior_witness :
    ("X" ∉ routers [("A", ([] : List (String × ℕ)))])
      ∧ (∃ d p, find_shortest_path [("A", [])] "X" = some (d, p)
          ∧ dget d "X" = some (some 0))
      ∧ ("B" ∉ ([("A", (none : Option String))].map Prod.fst))
      ∧ reconstruct_path [("A", none)] "A" "B" = none := by
  refine ⟨by decide, invalid_node_behavior.1 _ _ (by decide), by decide,
    invalid_node_behavior.2 _ _ _ (by decide)⟩

/-! ## C6: the concrete `test_dijkstra` scenario -/

/-- The `test_graph` of `test_dijkstra` in `dijkstra.py`. -/
def test_graph : Graph :=
  [("A", [("B", 4), ("C", 2)]), ("B", [("A", 4), ("C", 1), ("D", 5)]),
   ("C", [("A", 2), ("B", 1), ("D", 8)]), ("D", [("B", 5), ("C", 8)])]

/-- C6.  On the test topology with source `A`: the returned distances are
`{A: 0, B: 3, C: 2, D: 8}`, and the reconstructed path from `A` to `D` is
`[A, C, B, D]` with hop-by-hop cost `8`. -/
theorem test_dijkstra_scenario :
    find_shortest_path test_graph "A"
        = some ([("A", some 0), ("B", some 3), ("C", some 2), ("D", some 8)],
                [("A", none), ("B", some "C"), ("C", some "A"), ("D", some "B")])
      ∧ reconstruct_path
          [("A", none), ("B", some "C"), ("C", some "A"), ("D", some "B")] "A" "D"
        = some (some ["A", "C", "B", "D"])
      ∧ pathCost test_graph ["A", "C", "B", "D"] = some 8 :=
  ⟨rfl, rfl, rfl⟩

/-! ## C9: missing-key lookups inside the main loop -/

/-- Success of the loop needs only that every neighbor key is present in the
`distances` dict; no well-formedness of the graph is required. -/
theorem spLoop_isSome {g : Graph} (hcl : NeighborClosed g) :
    ∀ (fuel : ℕ) (dist : DistMap) (prev : PrevMap) (queue : List (ℕ × String))
      (visited : List String),
      spMeasure g visited queue < fuel →
      dist.map Prod.fst = prev.map Prod.fst →
      (∀ x, x ∈ g.map Prod.fst → x ∈ dist.map Prod.fst) →
      (spLoop g fuel dist prev queue visited).isSome := by
  intro fuel
  induction fuel with
  | zero =>
    intro dist prev queue visited hm _ _
    omega
  | succ fuel ih =>
    intro dist prev queue visited hm hkeq hsup
    cases hpop : popMin queue with
    | none => rw [spLoop_succ_empty hpop]; rfl
    | some p =>
      obtain ⟨⟨d, u⟩, rest⟩ := p
      have hlen : queue.length = rest.length + 1 := by
        have := (popMin_perm hpop).length_eq
        simpa using this
      by_cases hu : u ∈ visited
      · rw [spLoop_succ_skip hpop hu]
        refine ih dist prev rest visited ?_ hkeq hsup
        simp only [spMeasure] at hm ⊢
        omega
      · cases hgu : dget g u with
        | none =>
          rw [spLoop_succ_noadj hpop hu hgu]
          have hmono := sumDeg_mono g u visited
          refine ih dist prev rest (u :: visited) ?_ hkeq hsup
          simp only [spMeasure] at hm ⊢
          omega
        | some adj =>
          have hks : ∀ vc ∈ adj, vc.1 ∈ dist.map Prod.fst := by
            intro vc hvc
            exact hsup vc.1 (hcl u adj hgu vc hvc)
          cases hrel : relaxNeighbors (u :: visited) d u adj dist prev rest with
          | none =>
            have := @relax_isSome (u :: visited) d u adj dist prev rest hks
            rw [hrel] at this
            exact absurd this (by simp)
          | some t =>
            obtain ⟨dist', prev', queue'⟩ := t
            rw [spLoop_succ_relax_some hpop hu hgu hrel]
            obtain ⟨hk1, hk2⟩ := relax_keys hrel hkeq
            have hql := relax_queue_len hrel
            have hsv := sumDeg_visit hgu hu
            refine ih dist' prev' queue' (u :: visited) ?_ ?_ ?_
            · simp only [spMeasure] at hm ⊢
              omega
            · rw [hk1, hk2, hkeq]
            · intro x hx
              rw [hk1]
              exact hsup x hx
          
/-- C9.  On a neighbor-closed graph whose start router is a key, the main loop
of `find_shortest_path` never reads a missing key from the `distances` or
`previous` dicts (the only error branches of the embedding are exactly those
reads, so the run returns normally); and on the graph `{"A": {"B": 1}}` whose
neighbor `B` is not a key, the read `distances[B]` fails (`KeyError`). -/
theorem find_shortest_path_no_missing_key :
    (∀ (g : Graph) (s : String), NeighborClosed g → s ∈ routers g →
      (find_shortest_path g s).isSome)
    ∧ find_shortest_path [("A", [("B", 1)])] "A" = none := by
  constructor
  · intro g s hcl hs
    unfold find_shortest_path
    refine spLoop_isSome hcl _ _ _ _ _ ?_ ?_ ?_
    · simp [spMeasure]
    · rw [dictSet_keys_of_mem (by rw [initDist_keys]; exact hs), initDist_keys,
        initPrev_keys]
    · intro x hx
      rw [dictSet_keys_of_mem (by rw [initDist_keys]; exact hs), initDist_keys]
      exact hx
  · rfl

theorem neighborClosed_of_forall {g : Graph}
    (h : ∀ p ∈ g, ∀ vc ∈ p.2, vc.1 ∈ g.map Prod.fst) : NeighborClosed g := by
  intro u adj hu vc hvc
  exact h (u, adj) (dget_mem hu) vc hvc

theorem find_shortest_path_no_missing_key_witness :
    NeighborClosed test_graph ∧ "A" ∈ routers test_graph
      ∧ (find_shortest_path test_graph "A").isSome := by
  have hcl : NeighborClosed test_graph := neighborClosed_of_forall (by decide)
  exact ⟨hcl, by decide,
    find_shortest_path_no_missing_key.1 test_graph "A" hcl (by decide)⟩

/-! ## Metrics layer (`metrics.py`)

Real-valued quantities are embedded as rationals; Python's binary floats are
idealized as exact arithmetic, `round(x, n)` as round-half-to-even at `n`
decimal digits. -/

def DEFAULT_PACKET_SIZE_BYTES : ℚ := 1500
def SPEED_OF_LIGHT_FIBER : ℚ := 2 * 10 ^ 8
def DEFAULT_PACKET_LOSS : ℚ := 1 / 100
def DEFAULT_UTILIZATION : ℚ := 8 / 10

/-- Round a rational to the nearest integer, ties to even. -/
def roundHalfEvenInt (x : ℚ) : ℤ :=
  if x - ⌊x⌋ < 1 / 2 then ⌊x⌋
  else if 1 / 2 < x - ⌊x⌋ then ⌊x⌋ + 1
  else if ⌊x⌋ % 2 = 0 then ⌊x⌋ else ⌊x⌋ + 1

/-- Python's `round(q, digits)`: round half to even at `digits` decimals. -/
def pyRound (digits : ℕ) (q : ℚ) : ℚ :=
  (roundHalfEvenInt (q * 10 ^ digits) : ℚ) / 10 ^ digits

theorem roundHalfEvenInt_intCast (n : ℤ) : roundHalfEvenInt (n : ℚ) = n := by
  unfold roundHalfEvenInt
  rw [Int.floor_intCast, sub_self]
  norm_num

theorem pyRound_eq_of_scaled_int (digits : ℕ) (q : ℚ) (n : ℤ)
    (h : q * 10 ^ digits = (n : ℚ)) : pyRound digits q = (n : ℚ) / 10 ^ digits := by
  unfold pyRound
  rw [h, roundHalfEvenInt_intCast]

/-- Embedding of `propagation_delay_ms` of `metrics.py`. -/
def propagation_delay_ms (distance_km : ℚ) : ℚ :=
  distance_km * 1000 / SPEED_OF_LIGHT_FIBER * 1000

/-- Embedding of `transmission_delay_ms` of `metrics.py`. -/
def transmission_delay_ms (packet_size_bytes bandwidth_mbps : ℚ) : ℚ :=
  packet_size_bytes * 8 / (bandwidth_mbps * 10 ^ 6) * 1000

/-- Python's `min` over a list (callers only use it on non-empty lists). -/
def listMin : List ℚ → ℚ
  | [] => 0
  | [x] => x
  | x :: y :: rest => min x (listMin (y :: rest))

/-- Embedding of `effective_throughput_mbps` of `metrics.py`; the Python defaults
`packet_loss=0.01, utilization=0.8` are passed explicitly by callers. -/
def effective_throughput_mbps (path_bandwidths_mbps : List ℚ)
    (packet_loss utilization : ℚ) : ℚ :=
  if path_bandwidths_mbps = [] then 0
  else pyRound 2 (listMin path_bandwidths_mbps * (1 - packet_loss) * utilization)

/-- Per-edge attribute dict of the rich topology.  Only the three keys the
code reads are modelled; a Python attrs dict containing none of them is
identified with the empty dict, which is sound here because the code then
reads it only through `.get` with the same per-key defaults the empty dict
would produce. -/
structure Attrs where
  cost : Option ℕ
  distance_km : Option ℚ
  bandwidth_mbps : Option ℚ

abbrev Topology : Type := List (String × List (String × Attrs))

/-- Python dict truthiness of an attrs dict (`if not attrs`). -/
def attrsEmpty (a : Attrs) : Bool :=
  a.cost.isNone && a.distance_km.isNone && a.bandwidth_mbps.isNone

/-- The literal `{'cost':64, 'distance_km':50, 'bandwidth_mbps':1000}`. -/
def defaultAttrs : Attrs := ⟨some 64, some 50, some 1000⟩

/-- Edge-attribute resolution of `calculate_network_metrics` (lines 58-63):
`if a not in topology or b not in topology[a]: attrs = topology.get(a,{}).get(b)
or topology.get(b,{}).get(a); if not attrs: attrs = {...default...}
else: attrs = topology[a][b]`. -/
def resolveAttrs (topo : Topology) (a b : String) : Attrs :=
  match dget topo a with
  | none =>
      match (dget topo b).bind (fun nb => dget nb a) with
      | none => defaultAttrs
      | some r => if attrsEmpty r then defaultAttrs else r
  | some na =>
      match dget na b with
      | none =>
          match (dget topo b).bind (fun nb => dget nb a) with
          | none => defaultAttrs
          | some r => if attrsEmpty r then defaultAttrs else r
      | some fw => fw

/-- The per-key reads `attrs.get('cost',64)`, `attrs.get('distance_km',50)`,
`attrs.get('bandwidth_mbps',1000)` applied to a resolved attrs dict. -/
def attrTriple (a : Attrs) : ℕ × ℚ × ℚ :=
  (a.cost.getD 64, a.distance_km.getD 50, a.bandwidth_mbps.getD 1000)

/-- The weights graph built at the top of `calculate_network_metrics`:
`weights_graph[node][nbr] = attrs.get('cost', 64)`. -/
def weights_graph (topo : Topology) : Graph :=
  topo.map (fun p => (p.1, p.2.map (fun q => (q.1, q.2.cost.getD 64))))

/-- Consecutive pairs `(path[i], path[i+1])` for `i in range(len(path)-1)`. -/
def hopPairs : List String → List (String × String)
  | a :: b :: rest => (a, b) :: hopPairs (b :: rest)
  | _ => []

/-- One `metrics[src][dst]` record (the Python `delay` sub-dict is
flattened into the `..._ms` fields). -/
structure RouteMetrics where
  path_list : List String
  path_str : String
  hops : ℕ
  ospf_cost : ℕ
  propagation_ms : ℚ
  transmission_ms : ℚ
  processing_ms : ℚ
  queuing_ms : ℚ
  total_delay_ms : ℚ
  throughput_mbps : ℚ
  path_bandwidths_mbps : List ℚ

/-- The per-path accumulation loop of `calculate_network_metrics`
(lines 50-93). -/
def mkEntry (topo : Topology) (packet_size_bytes : ℚ) (p : List String) :
    RouteMetrics :=
  let triples := (hopPairs p).map (fun ab => attrTriple (resolveAttrs topo ab.1 ab.2))
  let link_costs := triples.map (fun t => t.1)
  let prop_ms := (triples.map (fun t => propagation_delay_ms t.2.1)).sum
  let trans_ms := (triples.map (fun t => transmission_delay_ms packet_size_bytes t.2.2)).sum
  let path_bandwidths := triples.map (fun t => t.2.2)
  let hops := max (p.length - 1) 0
  let processing_ms : ℚ := hops * 1
  let queuing_ms : ℚ := hops * 2
  { path_list := p
    path_str := String.intercalate " -> " p
    hops := hops
    ospf_cost := link_costs.sum
    propagation_ms := pyRound 4 prop_ms
    transmission_ms := pyRound 4 trans_ms
    processing_ms := pyRound 4 processing_ms
    queuing_ms := pyRound 4 queuing_ms
    total_delay_ms := pyRound 4 (prop_ms + trans_ms + processing_ms + queuing_ms)
    throughput_mbps := effective_throughput_mbps path_bandwidths
      DEFAULT_PACKET_LOSS DEFAULT_UTILIZATION
    path_bandwidths_mbps := path_bandwidths }

/-- The `for dst in topology.keys():` loop body: skip `dst == src`, skip
falsy paths, otherwise store the metrics record. -/
def rowFor (topo : Topology) (packet_size_bytes : ℚ) (sr : SourceResult)
    (src : String) : List String → List (String × RouteMetrics)
  | [] => []
  | dst :: rest =>
    if dst = src then rowFor topo packet_size_bytes sr src rest
    else
      match dget sr.paths dst with
      | none => rowFor topo packet_size_bytes sr src rest
      | some none => rowFor topo packet_size_bytes sr src rest
      | some (some p) =>
        if p = [] then rowFor topo packet_size_bytes sr src rest
        else (dst, mkEntry topo packet_size_bytes p)
          :: rowFor topo packet_size_bytes sr src rest

/-- The `for src in topology.keys():` loop (reads `all_routes[src]`, a
`KeyError` — `none` — if that key were missing). -/
def metricsGo (topo : Topology) (packet_size_bytes : ℚ)
    (all_routes : List (String × SourceResult)) :
    List String → Option (List (String × List (String × RouteMetrics)))
  | [] => some []
  | src :: rest =>
    match dget all_routes src with
    | none => none
    | some sr =>
      match metricsGo topo packet_size_bytes all_routes rest with
      | none => none
      | some l =>
        some ((src, rowFor topo packet_size_bytes sr src (topo.map Prod.fst)) :: l)

/-- Embedding of `calculate_network_metrics(topology, packet_size_bytes)` of `metrics.py`. -/
def calculate_network_metrics (topo : Topology) (packet_size_bytes : ℚ) :
    Option (List (String × List (String × RouteMetrics))) :=
  match calculate_all_paths (weights_graph topo) with
  | none => none
  | some all_routes => metricsGo topo packet_size_bytes all_routes (topo.map Prod.fst)

/-! ## C5: the edge-attribute fallback chain -/

theorem attrsEmpty_triple {a : Attrs} (h : attrsEmpty a = true) :
    attrTriple a = (64, 50, 1000) := by
  obtain ⟨c, d, b⟩ := a
  simp only [attrsEmpty, Bool.and_eq_true, Option.isNone_iff_eq_none] at h
  obtain ⟨⟨hc, hd⟩, hb⟩ := h
  subst hc; subst hd; subst hb
  rfl

/-- Modelled from the claim's wording: resolve by the forward arc if present,
otherwise the reverse arc if present, otherwise the fixed default attribute
set. -/
def resolveAttrsSpec (topo : Topology) (a b : String) : Attrs :=
  match (dget topo a).bind (fun na => dget na b) with
  | some fw => fw
  | none =>
    match (dget topo b).bind (fun nb => dget nb a) with
    | some rv => rv
    | none => defaultAttrs

/-- C5.  The edge attributes that `calculate_network_metrics` uses for a hop
`(a, b)` agree (after the per-key `.get` defaults) with the claim's fallback
chain — forward arc if present, else reverse arc if present, else the fixed
default set `cost=64, distance_km=50, bandwidth_mbps=1000`. -/
theorem resolveAttrs_fallback_chain :
    (∀ (topo : Topology) (a b : String),
      attrTriple (resolveAttrs topo a b) = attrTriple (resolveAttrsSpec topo a b))
    ∧ attrTriple defaultAttrs = (64, 50, 1000) := by
  refine ⟨?_, rfl⟩
  intro topo a b
  unfold resolveAttrs resolveAttrsSpec
  cases hta : dget topo a with
  | none =>
    show attrTriple (match (dget topo b).bind (fun nb => dget nb a) with
        | none => defaultAttrs
        | some r => if attrsEmpty r then defaultAttrs else r)
      = attrTriple (match (dget topo b).bind (fun nb => dget nb a) with
        | some rv => rv
        | none => defaultAttrs)
    cases hrv : (dget topo b).bind (fun nb => dget nb a) with
    | none => rfl
    | some r =>
      show attrTriple (if attrsEmpty r then defaultAttrs else r) = attrTriple r
      by_cases he : attrsEmpty r
      · rw [if_pos he, attrsEmpty_triple he]
        rfl
      · rw [if_neg he]
  | some na =>
    show attrTriple (match dget na b with
        | none =>
          match (dget topo b).bind (fun nb => dget nb a) with
          | none => defaultAttrs
          | some r => if attrsEmpty r then defaultAttrs else r
        | some fw => fw)
      = attrTriple (match dget na b with
        | some fw => fw
        | none =>
          match (dget topo b).bind (fun nb => dget nb a) with
          | some rv => rv
          | none => defaultAttrs)
    cases htb : dget na b with
    | none =>
      cases hrv : (dget topo b).bind (fun nb => dget nb a) with
      | none => rfl
      | some r =>
        show attrTriple (if attrsEmpty r then defaultAttrs else r) = attrTriple r
        by_cases he : attrsEmpty r
        · rw [if_pos he, attrsEmpty_triple he]
          rfl
        · rw [if_neg he]
    | some fw => rfl

/-! ## C7: effective throughput -/

theorem listMin_mem : ∀ (l : List ℚ), l ≠ [] → listMin l ∈ l
  | [], h => absurd rfl h
  | [x], _ => by simp [listMin]
  | x :: y :: rest, _ => by
    have ih := listMin_mem (y :: rest) (by simp)
    simp only [listMin]
    rcases le_total x (listMin (y :: rest)) with h | h
    · rw [min_eq_left h]
      exact List.mem_cons_self _ _
    · rw [min_eq_right h]
      exact List.mem_cons_of_mem _ ih

theorem listMin_le : ∀ (l : List ℚ), ∀ x ∈ l, listMin l ≤ x
  | [], x, hx => by simp at hx
  | [y], x, hx => by
    simp only [List.mem_singleton] at hx
    subst hx
    exact le_refl _
  | y :: z :: rest, x, hx => by
    simp only [listMin]
    rcases List.mem_cons.mp hx with rfl | hx'
    · exact min_le_left _ _
    · exact le_trans (min_le_right _ _) (listMin_le (z :: rest) x hx')

/-- C7.  With the default loss `0.01` and utilization `0.8`,
`effective_throughput_mbps` on a non-empty bandwidth list returns the minimum
bandwidth times `(1 - 0.01) * 0.8`, rounded to 2 decimal digits; in
particular on `[10, 5]` it returns exactly `3.96`. -/
theorem effective_throughput_spec (l : List ℚ) (m : ℚ) (hm : m ∈ l)
    (hmin : ∀ x ∈ l, m ≤ x) :
    effective_throughput_mbps l DEFAULT_PACKET_LOSS DEFAULT_UTILIZATION
        = pyRound 2 (m * (1 - 1 / 100) * (8 / 10))
      ∧ effective_throughput_mbps [10, 5] DEFAULT_PACKET_LOSS DEFAULT_UTILIZATION
        = 396 / 100 := by
  constructor
  · have hne : l ≠ [] := by
      rintro rfl
      simp at hm
    have heq : listMin l = m :=
      le_antisymm (listMin_le l m hm) (hmin _ (listMin_mem l hne))
    unfold effective_throughput_mbps
    rw [if_neg hne, heq]
    rfl
  · unfold effective_throughput_mbps
    rw [if_neg (by simp : ¬([10, 5] : List ℚ) = [])]
    have h5 : listMin [10, 5] = 5 := by
      simp only [listMin]
      norm_num
    rw [h5, pyRound_eq_of_scaled_int 2 _ 396
      (by norm_num [DEFAULT_PACKET_LOSS, DEFAULT_UTILIZATION])]
    norm_num

theorem effective_throughput_spec_witness :
    ((5 : ℚ) ∈ [(10 : ℚ), 5])
      ∧ (effective_throughput_mbps [10, 5] DEFAULT_PACKET_LOSS DEFAULT_UTILIZATION
          = pyRound 2 (5 * (1 - 1 / 100) * (8 / 10))
        ∧ effective_throughput_mbps [10, 5] DEFAULT_PACKET_LOSS DEFAULT_UTILIZATION
          = 396 / 100) := by
  refine ⟨by norm_num, effective_throughput_spec [10, 5] 5 (by norm_num) ?_⟩
  intro x hx
  rcases List.mem_cons.mp hx with rfl | hx'
  · norm_num
  · simp only [List.mem_singleton] at hx'
    subst hx'
    norm_num

/-! ## C10: shape of every metrics entry -/

theorem hopPairs_length : ∀ (p : List String), (hopPairs p).length = p.length - 1
  | [] => rfl
  | [_] => rfl
  | a :: b :: rest => by
    have := hopPairs_length (b :: rest)
    simp only [hopPairs, List.length_cons] at this ⊢
    omega

theorem mkEntry_path_list (topo : Topology) (psize : ℚ) (p : List String) :
    (mkEntry topo psize p).path_list = p := rfl

theorem mkEntry_hops (topo : Topology) (psize : ℚ) (p : List String) :
    (mkEntry topo psize p).hops = max (p.length - 1) 0 := rfl

theorem mkEntry_bandwidths_len (topo : Topology) (psize : ℚ) (p : List String) :
    (mkEntry topo psize p).path_bandwidths_mbps.length = p.length - 1 := by
  show ((hopPairs p).map (fun ab => attrTriple (resolveAttrs topo ab.1 ab.2))
    |>.map (fun t => t.2.2)).length = p.length - 1
  rw [List.length_map, List.length_map, hopPairs_length]

theorem rowFor_cons_self {topo : Topology} {psize : ℚ} {sr : SourceResult}
    {src dst₀ : String} {rest : List String} (hd : dst₀ = src) :
    rowFor topo psize sr src (dst₀ :: rest) = rowFor topo psize sr src rest := by
  simp [rowFor, hd]

theorem rowFor_cons_nopath {topo : Topology} {psize : ℚ} {sr : SourceResult}
    {src dst₀ : String} {rest : List String} (hd : ¬ dst₀ = src)
    (hp : dget sr.paths dst₀ = none) :
    rowFor topo psize sr src (dst₀ :: rest) = rowFor topo psize sr src rest := by
  simp [rowFor, hd, hp]

theorem rowFor_cons_pathnone {topo : Topology} {psize : ℚ} {sr : SourceResult}
    {src dst₀ : String} {rest : List String} (hd : ¬ dst₀ = src)
    (hp : dget sr.paths dst₀ = some none) :
    rowFor topo psize sr src (dst₀ :: rest) = rowFor topo psize sr src rest := by
  simp [rowFor, hd, hp]

theorem rowFor_cons_pathnil {topo : Topology} {psize : ℚ} {sr : SourceResult}
    {src dst₀ : String} {rest : List String} {p : List String} (hd : ¬ dst₀ = src)
    (hp : dget sr.paths dst₀ = some (some p)) (hnil : p = []) :
    rowFor topo psize sr src (dst₀ :: rest) = rowFor topo psize sr src rest := by
  simp [rowFor, hd, hp, hnil]

theorem rowFor_cons_entry {topo : Topology} {psize : ℚ} {sr : SourceResult}
    {src dst₀ : String} {rest : List String} {p : List String} (hd : ¬ dst₀ = src)
    (hp : dget sr.paths dst₀ = some (some p)) (hnil : ¬ p = []) :
    rowFor topo psize sr src (dst₀ :: rest)
      = (dst₀, mkEntry topo psize p) :: rowFor topo psize sr src rest := by
  simp [rowFor, hd, hp, hnil]

theorem rowFor_spec {topo : Topology} {psize : ℚ} {sr : SourceResult}
    {src : String} :
    ∀ (dsts : List String) {dst : String} {e : RouteMetrics},
      dget (rowFor topo psize sr src dsts) dst = some e →
      dst ≠ src ∧ ∃ p, dget sr.paths dst = some (some p) ∧ p ≠ []
        ∧ e = mkEntry topo psize p := by
  intro dsts
  induction dsts with
  | nil =>
    intro dst e h
    simp [rowFor, dget] at h
  | cons dst₀ rest ih =>
    intro dst e h
    by_cases hd : dst₀ = src
    · rw [rowFor_cons_self hd] at h
      exact ih h
    · cases hp : dget sr.paths dst₀ with
      | none =>
        rw [rowFor_cons_nopath hd hp] at h
        exact ih h
      | some po =>
        cases po with
        | none =>
          rw [rowFor_cons_pathnone hd hp] at h
          exact ih h
        | some p =>
          by_cases hnil : p = []
          · rw [rowFor_cons_pathnil hd hp hnil] at h
            exact ih h
          · rw [rowFor_cons_entry hd hp hnil] at h
            by_cases hdd : dst₀ = dst
            · subst hdd
              simp only [dget, if_pos rfl] at h
              have he : mkEntry topo psize p = e := by simpa using h
              exact ⟨fun hc => hd hc, p, hp, hnil, he.symm⟩
            · simp only [dget, if_neg hdd] at h
              exact ih h

theorem metricsGo_nil {topo : Topology} {psize : ℚ}
    {ar : List (String × SourceResult)} :
    metricsGo topo psize ar [] = some [] := rfl

theorem metricsGo_cons_some {topo : Topology} {psize : ℚ}
    {ar : List (String × SourceResult)} {src₀ : String} {rest : List String}
    {sr : SourceResult} {l : List (String × List (String × RouteMetrics))}
    (h1 : dget ar src₀ = some sr) (h2 : metricsGo topo psize ar rest = some l) :
    metricsGo topo psize ar (src₀ :: rest)
      = some ((src₀, rowFor topo psize sr src₀ (topo.map Prod.fst)) :: l) := by
  simp [metricsGo, h1, h2]

theorem metricsGo_spec {topo : Topology} {psize : ℚ}
    {ar : List (String × SourceResult)} :
    ∀ (srcs : List String) {m : List (String × List (String × RouteMetrics))},
      metricsGo topo psize ar srcs = some m →
      ∀ {src : String} {row : List (String × RouteMetrics)},
        dget m src = some row →
        ∃ sr, dget ar src = some sr
          ∧ row = rowFor topo psize sr src (topo.map Prod.fst) := by
  intro srcs
  induction srcs with
  | nil =>
    intro m hm src row hrow
    have : ([] : List (String × List (String × RouteMetrics))) = m := by
      simpa [metricsGo_nil] using hm
    subst this
    simp [dget] at hrow
  | cons src₀ rest ih =>
    intro m hm src row hrow
    cases h1 : dget ar src₀ with
    | none => simp [metricsGo, h1] at hm
    | some sr =>
      cases h2 : metricsGo topo psize ar rest with
      | none => simp [metricsGo, h1, h2] at hm
      | some l =>
        rw [metricsGo_cons_some h1 h2] at hm
        have hm' : (src₀, rowFor topo psize sr src₀ (topo.map Prod.fst)) :: l = m := by
          simpa using hm
        subst hm'
        by_cases hs : src₀ = src
        · subst hs
          simp only [dget, if_pos rfl] at hrow
          have : rowFor topo psize sr src₀ (topo.map Prod.fst) = row := by
            simpa using hrow
          exact ⟨sr, h1, this.symm⟩
        · simp only [dget, if_neg hs] at hrow
          exact ih h2 hrow

theorem buildPaths_get {p : PrevMap} {router : String} :
    ∀ (dsts : List String) {l : List (String × Option (List String))},
      buildPaths p router dsts = some l →
      ∀ {dst : String} {po : Option (List String)}, dget l dst = some po →
        dst ≠ router ∧ reconstruct_path p router dst = some po := by
  intro dsts
  induction dsts with
  | nil =>
    intro l hl dst po h
    have : ([] : List (String × Option (List String))) = l := by
      simpa [buildPaths] using hl
    subst this
    simp [dget] at h
  | cons dst₀ rest ih =>
    intro l hl dst po h
    by_cases hd : dst₀ = router
    · rw [show buildPaths p router (dst₀ :: rest) = buildPaths p router rest by
        simp [buildPaths, hd]] at hl
      exact ih hl h
    · cases hrp : reconstruct_path p router dst₀ with
      | none => simp [buildPaths, hd, hrp] at hl
      | some po₀ =>
        cases hrest : buildPaths p router rest with
        | none => simp [buildPaths, hd, hrp, hrest] at hl
        | some l' =>
          have hl' : (dst₀, po₀) :: l' = l := by
            simpa [buildPaths, hd, hrp, hrest] using hl
          subst hl'
          by_cases hdd : dst₀ = dst
          · subst hdd
            simp only [dget, if_pos rfl] at h
            have : po₀ = po := by simpa using h
            subst this
            exact ⟨hd, hrp⟩
          · simp only [dget, if_neg hdd] at h
            exact ih hrest h

theorem capGo_spec {g : Graph} :
    ∀ (srcs : List String) {ar : List (String × SourceResult)},
      capGo g srcs = some ar →
      ∀ {src : String} {sr : SourceResult}, dget ar src = some sr →
        ∃ dp, find_shortest_path g src = some dp
          ∧ sr.distances = dp.1 ∧ sr.previous = dp.2
          ∧ buildPaths dp.2 src (routers g) = some sr.paths := by
  intro srcs
  induction srcs with
  | nil =>
    intro ar har src sr h
    have : ([] : List (String × SourceResult)) = ar := by
      simpa [capGo] using har
    subst this
    simp [dget] at h
  | cons src₀ rest ih =>
    intro ar har src sr h
    cases hfp : find_shortest_path g src₀ with
    | none => simp [capGo, hfp] at har
    | some dp =>
      cases hbp : buildPaths dp.2 src₀ (routers g) with
      | none => simp [capGo, hfp, hbp] at har
      | some paths =>
        cases hrest : capGo g rest with
        | none => simp [capGo, hfp, hbp, hrest] at har
        | some l =>
          have har' : (src₀, (⟨dp.1, dp.2, paths⟩ : SourceResult)) :: l = ar := by
            simpa [capGo, hfp, hbp, hrest] using har
          subst har'
          by_cases hs : src₀ = src
          · subst hs
            simp only [dget, if_pos rfl] at h
            have : (⟨dp.1, dp.2, paths⟩ : SourceResult) = sr := by simpa using h
            subst this
            exact ⟨dp, hfp, rfl, rfl, hbp⟩
          · simp only [dget, if_neg hs] at h
            exact ih hrest h

/-- C10.  Whenever `calculate_network_metrics` returns, every entry
`metrics[src][dst]` satisfies the shape invariant: `src ≠ dst`, the stored
path is non-empty, starts at `src`, ends at `dst`, `hops` is the path length
minus one, and there is exactly one recorded bandwidth per hop. -/
theorem metrics_entry_shape (topo : Topology) (psize : ℚ)
    (m : List (String × List (String × RouteMetrics)))
    (hm : calculate_network_metrics topo psize = some m) :
    ∀ src row, dget m src = some row →
    ∀ dst e, dget row dst = some e →
      src ≠ dst ∧ e.path_list ≠ [] ∧ e.path_list.head? = some src
        ∧ e.path_list.getLast? = some dst
        ∧ e.hops = e.path_list.length - 1
        ∧ e.path_bandwidths_mbps.length = e.hops := by
  intro src row hrow dst e he
  unfold calculate_network_metrics at hm
  cases hcap : calculate_all_paths (weights_graph topo) with
  | none => rw [hcap] at hm; exact absurd hm (by simp)
  | some ar =>
    rw [hcap] at hm
    obtain ⟨sr, har, hrf⟩ := metricsGo_spec (topo.map Prod.fst) hm hrow
    subst hrf
    obtain ⟨hne, p, hpaths, hpne, hE⟩ := rowFor_spec (topo.map Prod.fst) he
    obtain ⟨dp, hfp, _, _, hbp⟩ := capGo_spec (routers (weights_graph topo)) hcap har
    obtain ⟨hner, hrp⟩ := buildPaths_get (routers (weights_graph topo)) hbp hpaths
    obtain ⟨hp1, hp2, hp3⟩ := reconstruct_path_some hrp
    subst hE
    refine ⟨fun hc => hne hc.symm, hpne, hp2, hp3, ?_, ?_⟩
    · rw [mkEntry_path_list, mkEntry_hops]
      omega
    · rw [mkEntry_bandwidths_len, mkEntry_hops]
      omega

/-! ## C4: unreachable pairs in the metrics mapping -/

theorem weights_graph_keys (topo : Topology) :
    (weights_graph topo).map Prod.fst = topo.map Prod.fst := by
  simp [weights_graph]

/-- For a destination whose predecessor entry is `None`, the reconstruction
walk stops immediately; if that destination differs from the start the
function returns Python's `None` (no path). -/
theorem reconstruct_unreachable {prev : PrevMap} {start dst : String}
    (hpv : dget prev dst = some none) (hne : dst ≠ start) :
    reconstruct_path prev start dst = some none := by
  unfold reconstruct_path
  rw [reconWalk_succ_stop hpv]
  show (if [dst].head? = some start then some (some [dst]) else some none
    : Option (Option (List String))) = some none
  rw [if_neg (by simpa using hne)]

/-- On a final state, the predecessor of an unreachable router is `None`. -/
theorem final_prev_none {g : Graph} {s : String} {distF : DistMap}
    {prevF : PrevMap} {visitedF : List String}
    (hinv : SPInv g s distF prevF [] visitedF) {dst : String}
    (hdk : dst ∈ routers g) (hunr : ∀ n, ¬ Reach g s dst n) :
    dget prevF dst = some none := by
  have hdk' : dst ∈ prevF.map Prod.fst := by rw [hinv.keysP]; exact hdk
  obtain ⟨pv, hpv⟩ := Option.isSome_iff_exists.mp (dget_isSome_of_mem_keys hdk')
  cases pv with
  | none => exact hpv
  | some px =>
    obtain ⟨c, nx, _, _, hDv, _⟩ := hinv.prevI dst px hpv
    exact absurd (hinv.sound dst (nx + c) hDv) (hunr (nx + c))

/-- On a final state, `reconstruct_path` returns normally for every router of
the graph. -/
theorem reconstruct_isSome {g : Graph} {s : String} {distF : DistMap}
    {prevF : PrevMap} {visitedF : List String}
    (hinv : SPInv g s distF prevF [] visitedF) {dst : String}
    (hdk : dst ∈ routers g) :
    (reconstruct_path prevF s dst).isSome := by
  have hdk' : dst ∈ prevF.map Prod.fst := by rw [hinv.keysP]; exact hdk
  obtain ⟨pv, hpv⟩ := Option.isSome_iff_exists.mp (dget_isSome_of_mem_keys hdk')
  cases pv with
  | none =>
    unfold reconstruct_path
    rw [reconWalk_succ_stop hpv]
    show (if [dst].head? = some s then some (some [dst]) else some none
      : Option (Option (List String))).isSome
    by_cases hh : [dst].head? = some s
    · rw [if_pos hh]; rfl
    · rw [if_neg hh]; rfl
  | some px =>
    obtain ⟨c, nx, _, _, hDv, _⟩ := hinv.prevI dst px hpv
    have hdV : dst ∈ visitedF := by
      by_contra hc
      exact final_unvisited_inf hinv hc (nx + c) hDv
    obtain ⟨l, hrp, _, _, _⟩ := reconstruct_path_reachable hinv hdV hDv
    rw [hrp]
    rfl

theorem buildPaths_isSome {g : Graph} {s : String} {distF : DistMap}
    {prevF : PrevMap} {visitedF : List String}
    (hinv : SPInv g s distF prevF [] visitedF) :
    ∀ (dsts : List String), (∀ d ∈ dsts, d ∈ routers g) →
      (buildPaths prevF s dsts).isSome := by
  intro dsts
  induction dsts with
  | nil => intro _; rfl
  | cons dst₀ rest ih =>
    intro hsub
    by_cases hd : dst₀ = s
    · rw [show buildPaths prevF s (dst₀ :: rest) = buildPaths prevF s rest by
        simp [buildPaths, hd]]
      exact ih (fun d hdm => hsub d (List.mem_cons_of_mem _ hdm))
    · have h1 := reconstruct_isSome hinv (hsub dst₀ (List.mem_cons_self _ _))
      obtain ⟨po, hpo⟩ := Option.isSome_iff_exists.mp h1
      have h2 := ih (fun d hdm => hsub d (List.mem_cons_of_mem _ hdm))
      obtain ⟨l, hl⟩ := Option.isSome_iff_exists.mp h2
      rw [show buildPaths prevF s (dst₀ :: rest) = some ((dst₀, po) :: l) by
        simp [buildPaths, hd, hpo, hl]]
      rfl

theorem capGo_isSome {g : Graph} (hwf : WFGraph g) (hcl : NeighborClosed g) :
    ∀ (srcs : List String), (∀ x ∈ srcs, x ∈ routers g) →
      (capGo g srcs).isSome := by
  intro srcs
  induction srcs with
  | nil => intro _; rfl
  | cons src₀ rest ih =>
    intro hsub
    obtain ⟨distF, prevF, visitedF, hrun, hinv⟩ :=
      find_shortest_path_spec hwf hcl (hsub src₀ (List.mem_cons_self _ _))
    have hbp := buildPaths_isSome hinv (routers g) (fun d hd => hd)
    obtain ⟨paths, hpaths⟩ := Option.isSome_iff_exists.mp hbp
    have hrest := ih (fun x hx => hsub x (List.mem_cons_of_mem _ hx))
    obtain ⟨l, hl⟩ := Option.isSome_iff_exists.mp hrest
    rw [show capGo g (src₀ :: rest)
        = some ((src₀, ⟨distF, prevF, paths⟩) :: l) by
      simp [capGo, hrun, hpaths, hl]]
    rfl

theorem capGo_keys {g : Graph} :
    ∀ (srcs : List String) {ar : List (String × SourceResult)},
      capGo g srcs = some ar → ar.map Prod.fst = srcs := by
  intro srcs
  induction srcs with
  | nil =>
    intro ar har
    have : ([] : List (String × SourceResult)) = ar := by simpa [capGo] using har
    subst this
    rfl
  | cons src₀ rest ih =>
    intro ar har
    cases hfp : find_shortest_path g src₀ with
    | none => simp [capGo, hfp] at har
    | some dp =>
      cases hbp : buildPaths dp.2 src₀ (routers g) with
      | none => simp [capGo, hfp, hbp] at har
      | some paths =>
        cases hrest : capGo g rest with
        | none => simp [capGo, hfp, hbp, hrest] at har
        | some l =>
          have har' : (src₀, (⟨dp.1, dp.2, paths⟩ : SourceResult)) :: l = ar := by
            simpa [capGo, hfp, hbp, hrest] using har
          subst har'
          simp [ih hrest]

theorem metricsGo_isSome {topo : Topology} {psize : ℚ}
    {ar : List (String × SourceResult)} (hk : ∀ x ∈ topo.map Prod.fst, x ∈ ar.map Prod.fst) :
    ∀ (srcs : List String), (∀ x ∈ srcs, x ∈ topo.map Prod.fst) →
      (metricsGo topo psize ar srcs).isSome := by
  intro srcs
  induction srcs with
  | nil => intro _; rfl
  | cons src₀ rest ih =>
    intro hsub
    obtain ⟨sr, hsr⟩ := Option.isSome_iff_exists.mp
      (dget_isSome_of_mem_keys (hk src₀ (hsub src₀ (List.mem_cons_self _ _))))
    have hrest := ih (fun x hx => hsub x (List.mem_cons_of_mem _ hx))
    obtain ⟨l, hl⟩ := Option.isSome_iff_exists.mp hrest
    rw [metricsGo_cons_some hsr hl]
    rfl

theorem metricsGo_get {topo : Topology} {psize : ℚ}
    {ar : List (String × SourceResult)} :
    ∀ (srcs : List String) {m : List (String × List (String × RouteMetrics))},
      metricsGo topo psize ar srcs = some m →
      ∀ src, src ∈ srcs → ∃ row, dget m src = some row := by
  intro srcs
  induction srcs with
  | nil =>
    intro m _ src hsrc
    simp at hsrc
  | cons src₀ rest ih =>
    intro m hm src hsrc
    cases h1 : dget ar src₀ with
    | none => simp [metricsGo, h1] at hm
    | some sr =>
      cases h2 : metricsGo topo psize ar rest with
      | none => simp [metricsGo, h1, h2] at hm
      | some l =>
        rw [metricsGo_cons_some h1 h2] at hm
        have hm' : (src₀, rowFor topo psize sr src₀ (topo.map Prod.fst)) :: l = m := by
          simpa using hm
        subst hm'
        by_cases hs : src₀ = src
        · exact ⟨rowFor topo psize sr src₀ (topo.map Prod.fst), by simp [dget, hs]⟩
        · obtain ⟨row, hrow⟩ := ih h2 src (by
            rcases List.mem_cons.mp hsrc with h | h
            · exact absurd h.symm hs
            · exact h)
          exact ⟨row, by simp [dget, hs, hrow]⟩

/-- C4 amended.  On a topology whose weights graph is well-formed and
neighbor-closed, `calculate_network_metrics` returns normally, and for every
ordered pair of distinct topology nodes whose destination is unreachable from
the source it emits no entry at all for that pair — the pair is silently
omitted from the metrics mapping (so no crash and no zero/partial metric, but
also no explicit "unreachable" entry). -/
theorem metrics_unreachable_omitted (topo : Topology) (psize : ℚ)
    (hwf : WFGraph (weights_graph topo)) (hcl : NeighborClosed (weights_graph topo)) :
    ∃ m, calculate_network_metrics topo psize = some m
      ∧ ∀ src dst, src ∈ topo.map Prod.fst → dst ∈ topo.map Prod.fst →
          src ≠ dst → (∀ n, ¬ Reach (weights_graph topo) src dst n) →
          ∃ row, dget m src = some row ∧ dget row dst = none := by
  have hcap := capGo_isSome hwf hcl (routers (weights_graph topo)) (fun x hx => hx)
  obtain ⟨ar, har⟩ := Option.isSome_iff_exists.mp hcap
  have harkeys : ar.map Prod.fst = routers (weights_graph topo) :=
    capGo_keys (routers (weights_graph topo)) har
  have hk : ∀ x ∈ topo.map Prod.fst, x ∈ ar.map Prod.fst := by
    intro x hx
    rw [harkeys]
    show x ∈ (weights_graph topo).map Prod.fst
    rw [weights_graph_keys]
    exact hx
  have hmg := @metricsGo_isSome topo psize ar hk (topo.map Prod.fst) (fun x hx => hx)
  obtain ⟨m, hm⟩ := Option.isSome_iff_exists.mp hmg
  have hcnm : calculate_network_metrics topo psize = some m := by
    unfold calculate_network_metrics
    rw [show calculate_all_paths (weights_graph topo) = some ar from har]
    exact hm
  refine ⟨m, hcnm, ?_⟩
  intro src dst hsrc hdst hne hunr
  obtain ⟨row, hrow⟩ := metricsGo_get (topo.map Prod.fst) hm src hsrc
  refine ⟨row, hrow, ?_⟩
  obtain ⟨sr, hsr, hrf⟩ := metricsGo_spec (topo.map Prod.fst) hm hrow
  subst hrf
  cases hdd : dget (rowFor topo psize sr src (topo.map Prod.fst)) dst with
  | none => rfl
  | some e =>
    obtain ⟨_, p, hpaths, _, _⟩ := rowFor_spec (topo.map Prod.fst) hdd
    obtain ⟨dp, hfp, _, _, hbp⟩ := capGo_spec (routers (weights_graph topo)) har hsr
    obtain ⟨_, hrp⟩ := buildPaths_get (routers (weights_graph topo)) hbp hpaths
    obtain ⟨distF, prevF, visitedF, hrun, hinv⟩ := find_shortest_path_spec hwf hcl
      (by rw [show routers (weights_graph topo) = topo.map Prod.fst from
        weights_graph_keys topo]; exact hsrc)
    have hdp : dp = (distF, prevF) := by
      rw [hfp] at hrun
      simpa using hrun
    subst hdp
    have hdk : dst ∈ routers (weights_graph topo) := by
      rw [show routers (weights_graph topo) = topo.map Prod.fst from
        weights_graph_keys topo]
      exact hdst
    have hpn := final_prev_none hinv hdk hunr
    have := reconstruct_unreachable hpn hne.symm
    rw [this] at hrp
    simp at hrp

/-- Concrete disconnected rich topology: `A ↔ B` linked, `C` isolated. -/
def mkAttrsCex : Attrs := ⟨some 1, some 10, some 100⟩

def topoCex : Topology :=
  [("A", [("B", mkAttrsCex)]), ("B", [("A", mkAttrsCex)]), ("C", [])]

theorem topoCex_no_reach_C : ∀ n, ¬ Reach (weights_graph topoCex) "A" "C" n := by
  have key : ∀ v n, Reach (weights_graph topoCex) "A" v n → v ≠ "C" := by
    intro v n h
    induction h with
    | refl => decide
    | @step x w m c hr he ih =>
      intro hw
      subst hw
      unfold edgeCost at he
      cases hx : dget (weights_graph topoCex) x with
      | none => rw [hx] at he; simp at he
      | some adj =>
        rw [hx] at he
        have he' : dget adj "C" = some c := he
        have hC : "C" ∈ adj.map Prod.fst := dget_some_mem_keys he'
        have hmem' : (x, adj) ∈ ([("A", [("B", 1)]), ("B", [("A", 1)]),
            ("C", [])] : Graph) := dget_mem hx
        simp only [List.mem_cons, List.not_mem_nil, or_false] at hmem'
        rcases hmem' with h1 | h1 | h1 <;>
          · rw [show adj = _ from congrArg Prod.snd h1] at hC
            revert hC
            decide
  intro n h
  exact key "C" n h rfl

/-- C4 counterexample.  On the disconnected topology `topoCex`, `C` is
unreachable from `A`, yet the metrics mapping returned by
`calculate_network_metrics` contains no entry at all for the pair `(A, C)` —
in particular no explicit "unreachable" entry, contrary to the claim. -/
theorem metrics_unreachable_no_entry_cex :
    (∀ n, ¬ Reach (weights_graph topoCex) "A" "C" n)
      ∧ ((calculate_network_metrics topoCex 1500).map
          (fun m => (dget m "A").map (fun row => dget row "C")))
        = some (some none) :=
  ⟨topoCex_no_reach_C, rfl⟩

theorem metrics_unreachable_omitted_witness :
    ∃ m, calculate_network_metrics topoCex 1500 = some m
      ∧ ∀ src dst, src ∈ topoCex.map Prod.fst → dst ∈ topoCex.map Prod.fst →
          src ≠ dst → (∀ n, ¬ Reach (weights_graph topoCex) src dst n) →
          ∃ row, dget m src = some row ∧ dget row dst = none :=
  metrics_unreachable_omitted topoCex 1500 ⟨by decide, by decide⟩
    (neighborClosed_of_forall (by decide))

theorem metrics_entry_shape_witness :
    "A" ≠ "B" ∧ (mkEntry topoCex 1500 ["A", "B"]).path_list ≠ []
      ∧ (mkEntry topoCex 1500 ["A", "B"]).path_list.head? = some "A"
      ∧ (mkEntry topoCex 1500 ["A", "B"]).path_list.getLast? = some "B"
      ∧ (mkEntry topoCex 1500 ["A", "B"]).hops
          = (mkEntry topoCex 1500 ["A", "B"]).path_list.length - 1
      ∧ (mkEntry topoCex 1500 ["A", "B"]).path_bandwidths_mbps.length
          = (mkEntry topoCex 1500 ["A", "B"]).hops :=
  metrics_entry_shape topoCex 1500
    [("A", [("B", mkEntry topoCex 1500 ["A", "B"])]),
     ("B", [("A", mkEntry topoCex 1500 ["B", "A"])]), ("C", [])] rfl
    "A" [("B", mkEntry topoCex 1500 ["A", "B"])] rfl
    "B" (mkEntry topoCex 1500 ["A", "B"]) rfl

theorem find_shortest_path_correct_witness :
    ∃ distF prevF, find_shortest_path test_graph "A" = some (distF, prevF) ∧
      ∀ v ∈ routers test_graph,
        (∀ n, dget distF v = some (some n) ↔
          (Reach test_graph "A" v n ∧ ∀ m, Reach test_graph "A" v m → n ≤ m)) ∧
        (dget distF v = some none ↔ ∀ n, ¬ Reach test_graph "A" v n) :=
  find_shortest_path_correct test_graph "A" ⟨by decide, by decide⟩
    (neighborClosed_of_forall (by decide)) (by decide)

theorem reconstruct_path_exact_witness :
    ∃ distF prevF path n,
      find_shortest_path test_graph "A" = some (distF, prevF)
        ∧ reconstruct_path prevF "A" "D" = some (some path)
        ∧ dget distF "D" = some (some n)
        ∧ pathCost test_graph path = some n :=
  reconstruct_path_exact test_graph "A" "D" ⟨by decide, by decide⟩
    (neighborClosed_of_forall (by decide)) (by decide)
    ⟨9, Reach.step (Reach.step Reach.refl
      (show edgeCost test_graph "A" "B" = some 4 from rfl))
      (show edgeCost test_graph "B" "D" = some 5 from rfl)⟩

theorem calculate_all_paths_idempotent_witness :
    calculate_all_paths test_graph = calculate_all_paths test_graph :=
  calculate_all_paths_idempotent test_graph (calculate_all_paths test_graph)
    (calculate_all_paths test_graph) rfl rfl
